import Mathlib

/-!
# Mini-JSON-Parser: shallow embedding and verification

Embedding of `src/main.cpp` (class `JSONValue`, class `JSONParser`, function
`printJSON`).  The C++ parser walks a `std::string` with a forward-only index
`pos`; here the cursor is represented by the remaining suffix of the input,
a `List Char` (the index `pos` corresponds to `input.length - remaining.length`,
and `pos <= input.length` holds by construction).  `double` values are modelled
as exact decimals (`DNum` below): every numeric literal the grammar accepts is
a finite decimal, and the claims under study only involve short decimals that
are exactly representable doubles, where `std::stod` and the exact decimal
agree.  Both documented failure modes of `std::stod` are modelled:
`std::invalid_argument` when the token holds no digit, and `std::out_of_range`
when the converted value overflows the finite range of `double`.
`std::unordered_map` is modelled as an association list whose iteration order
is its insertion order (the C++ iteration order is unspecified; no claim
depends on the iteration order of an object with more than one key).

The recursion of `parseValue`/`parseArray`/`parseObject` is made structural
with an explicit fuel parameter; `parse` supplies fuel `3 * input.length + 3`,
and `parse_no_fuel_error` proves the fuel is never exhausted, so the
artificial `ParseErr.outOfFuel` outcome is unreachable from `parse`.
-/

/-- The `double` payload of a `Number`, modelled as the exact decimal the
scanner captured: the value `mant / 10 ^ scale`.  Every number occurring in
the claims is a short decimal that `std::stod` converts exactly, so the model
agrees with IEEE `double` semantics there.  (The model distinguishes the
spellings `1.5` and `1.50` of one double and has no negative zero; no claim
depends on either identification.)  `decVal` gives the rational value. -/
structure DNum where
  mant : ℤ
  scale : ℕ
deriving DecidableEq

/-- The rational value denoted by a `DNum`. -/
def decVal (x : DNum) : ℚ :=
  (x.mant : ℚ) / 10 ^ x.scale

/-- `std::isspace` (default C locale) on the ASCII characters the parser
handles: space, tab, newline, vertical tab, form feed, carriage return. -/
def cIsSpace (c : Char) : Bool :=
  c == ' ' || c == '\t' || c == '\n' || c == '\x0b' || c == '\x0c' || c == '\r'

/-- `std::isdigit`: the characters '0'..'9'. -/
def cIsDigit (c : Char) : Bool :=
  '0' ≤ c && c ≤ '9'

/-- `JSONValue` from `src/main.cpp`: the closed six-variant tagged union.
`JSONArray` is `std::vector<JSONValue>`, modelled as `List Value`;
`JSONObject` is `std::unordered_map<std::string, JSONValue>`, modelled as an
association list (insert-or-assign, insertion-ordered iteration). -/
inductive Value where
  | null : Value
  | bool (b : Bool) : Value
  | num (x : DNum) : Value
  | str (s : List Char) : Value
  | arr (items : List Value) : Value
  | obj (members : List (List Char × Value)) : Value

instance : Inhabited Value := ⟨.null⟩

/-- The failure outcomes of a `parse` call.
`syntaxError msg` is `throw std::runtime_error(msg)`;
`stodInvalidArgument` is the `std::invalid_argument` exception raised by
`std::stod` when the captured numeric token contains no digit;
`stodOutOfRange` is the `std::out_of_range` exception raised by `std::stod`
when the converted value overflows the finite range of `double` (both
exceptions escape `parseNumber` uncaught);
`outOfFuel` is an artifact of the fuel-structured embedding and is proved
unreachable from `parse`. -/
inductive ParseErr where
  | syntaxError (msg : String) : ParseErr
  | stodInvalidArgument : ParseErr
  | stodOutOfRange : ParseErr
  | outOfFuel : ParseErr
deriving DecidableEq

/-- `JSONParser::skipWhitespace`: `while (pos < input.size() && std::isspace(input[pos])) pos++;`. -/
def skipWhitespace (s : List Char) : List Char :=
  s.dropWhile cIsSpace

/-- `JSONParser::peek`: the next character, or `'\0'` when input is exhausted. -/
def peekc (s : List Char) : Char :=
  s.headD '\x00'

/-- The body of the `while (pos < input.size())` loop of `JSONParser::parseString`,
returning the accumulated characters and the remaining input.  When the input
is exhausted before a closing quote, the accumulated characters are returned
silently (the unterminated-string behaviour of the source). -/
def parseStringLoop : List Char → Except ParseErr (List Char × List Char)
  | [] => .ok ([], [])
  | c :: rest =>
    if c = '"' then .ok ([], rest)
    else if c = '\\' then
      match rest with
      | [] =>
        -- get() returns '\0' here, which is not a supported escape
        .error (.syntaxError "Invalid escape sequence")
      | n :: rest' =>
        if n = '"' ∨ n = '\\' ∨ n = '/' then
          match parseStringLoop rest' with
          | .ok (acc, r) => .ok (n :: acc, r)
          | .error e => .error e
        else if n = 'n' then
          match parseStringLoop rest' with
          | .ok (acc, r) => .ok ('\n' :: acc, r)
          | .error e => .error e
        else .error (.syntaxError "Invalid escape sequence")
    else
      match parseStringLoop rest with
      | .ok (acc, r) => .ok (c :: acc, r)
      | .error e => .error e

/-- `JSONParser::parseString`: requires an opening `"` (otherwise
`throw std::runtime_error("Expected '\"'")`), then runs the scan loop. -/
def parseString (s : List Char) : Except ParseErr (List Char × List Char) :=
  match s with
  | '"' :: rest => parseStringLoop rest
  | _ => .error (.syntaxError "Expected \x27\"\x27")

/-- The scanning phase of `JSONParser::parseNumber`: an optional `-`, a run of
digits, then optionally `.` and another run of digits.  Returns the captured
substring `input.substr(start, pos - start)` together with the rest. -/
def scanNumber (s : List Char) : List Char × List Char :=
  let p := if peekc s = '-' then ((['-'] : List Char), s.drop 1) else ([], s)
  let ip := p.2.span cIsDigit
  if peekc ip.2 = '.' then
    let fp := (ip.2.drop 1).span cIsDigit
    (p.1 ++ ip.1 ++ '.' :: fp.1, fp.2)
  else (p.1 ++ ip.1, ip.2)

/-- Numeric value of a digit character. -/
def digitVal (c : Char) : ℕ :=
  c.toNat - 48

/-- The nonnegative integer denoted by a digit string (most significant first). -/
def natOfDigits (ds : List Char) : ℕ :=
  ds.foldl (fun a c => 10 * a + digitVal c) 0

/-- Modelled from the source's use of `std::stod`: conversion of the captured
numeric token.  The tokens `parseNumber` captures have the shape
`-? digit* (. digit*)?`; `std::stod` throws `std::invalid_argument` when no
conversion is possible (the token contains no digit, e.g. `"-"` or `"-."`),
throws `std::out_of_range` when the converted value falls outside the range
of `double` (the underlying `strtod` overflows and sets `ERANGE`: in IEEE
binary64 round-to-nearest that happens exactly when the value's magnitude is
at least `2 ^ 1024 - 2 ^ 970`, the midpoint above the largest finite double,
which for the captured value `m / 10 ^ scale` is
`(2 ^ 1024 - 2 ^ 970) * 10 ^ scale ≤ m`; whether `errno` is set to `ERANGE`
on *underflow* is implementation-defined in C, so gradual underflow is
modelled as an ordinary successful conversion), and otherwise yields the
decimal's value (represented exactly as a `DNum` rather than rounded to the
nearest `double`). -/
def stodModel (t : List Char) : Except ParseErr DNum :=
  let p := if peekc t = '-' then (true, t.drop 1) else (false, t)
  let ip := p.2.span cIsDigit
  let fracDs := if peekc ip.2 = '.' then ((ip.2.drop 1).span cIsDigit).1 else ([] : List Char)
  if ip.1 = [] ∧ fracDs = [] then .error .stodInvalidArgument
  else
    let m : ℕ := natOfDigits ip.1 * 10 ^ fracDs.length + natOfDigits fracDs
    if (2 ^ 1024 - 2 ^ 970) * 10 ^ fracDs.length ≤ m then .error .stodOutOfRange
    else .ok ⟨if p.1 then -(m : ℤ) else (m : ℤ), fracDs.length⟩

/-- `JSONParser::parseNumber`: scan the token, then convert it with `std::stod`. -/
def parseNumber (s : List Char) : Except ParseErr (DNum × List Char) :=
  match stodModel (scanNumber s).1 with
  | .ok x => .ok (x, (scanNumber s).2)
  | .error e => .error e

/-- `obj[key] = value` on `std::unordered_map`: replace the value when the key
is present, insert the pair otherwise.  The association-list order models the
map's iteration order as insertion order. -/
def objInsert (m : List (List Char × Value)) (k : List Char) (v : Value) :
    List (List Char × Value) :=
  match m with
  | [] => [(k, v)]
  | (k', v') :: rest => if k' = k then (k, v) :: rest else (k', v') :: objInsert rest k v

/-- The keyword `"true"` compared by `input.compare(pos, 4, "true")`. -/
def kwTrue : List Char := ['t', 'r', 'u', 'e']

/-- The keyword `"false"` compared by `input.compare(pos, 5, "false")`. -/
def kwFalse : List Char := ['f', 'a', 'l', 's', 'e']

/-- The keyword `"null"` compared by `input.compare(pos, 4, "null")`. -/
def kwNull : List Char := ['n', 'u', 'l', 'l']

mutual

/-- `JSONParser::parseValue` (fuel-structured): skip whitespace, dispatch on
the next character (`"` string, `{` object, `[` array, digit or `-` number),
then try the keywords `true`/`false`/`null` by direct substring comparison
(advancing by the keyword length, with no word-boundary check), and otherwise
`throw std::runtime_error("Invalid JSON value")`. -/
def parseValueF : Nat → List Char → Except ParseErr (Value × List Char)
  | 0, _ => .error .outOfFuel
  | fuel + 1, s0 =>
    let s := skipWhitespace s0
    let c := peekc s
    if c = '"' then
      match parseString s with
      | .ok (a, r) => .ok (.str a, r)
      | .error e => .error e
    else if c = '\x7b' then
      match parseObjectF fuel s with
      | .ok (m, r) => .ok (.obj m, r)
      | .error e => .error e
    else if c = '[' then
      match parseArrayF fuel s with
      | .ok (a, r) => .ok (.arr a, r)
      | .error e => .error e
    else if cIsDigit c || c = '-' then
      match parseNumber s with
      | .ok (q, r) => .ok (.num q, r)
      | .error e => .error e
    else if s.take 4 = kwTrue then .ok (.bool true, s.drop 4)
    else if s.take 5 = kwFalse then .ok (.bool false, s.drop 5)
    else if s.take 4 = kwNull then .ok (.null, s.drop 4)
    else .error (.syntaxError "Invalid JSON value")

/-- `JSONParser::parseArray` (fuel-structured): consume `[` (else
`"Expected '['"`), skip whitespace, return the empty array on an immediate
`]`, otherwise run the element loop. -/
def parseArrayF : Nat → List Char → Except ParseErr (List Value × List Char)
  | 0, _ => .error .outOfFuel
  | fuel + 1, s =>
    if peekc s = '[' then
      let r := skipWhitespace (s.drop 1)
      if peekc r = ']' then .ok ([], r.drop 1)
      else parseArrayLoopF fuel r
    else .error (.syntaxError "Expected \x27[\x27")

/-- The `while (true)` loop of `JSONParser::parseArray`: parse one element,
skip whitespace, then either `]` ends the array, `,` continues, and anything
else (including end of input, where `get()` yields `'\0'`) raises
`"Expected ',' in array"`. -/
def parseArrayLoopF : Nat → List Char → Except ParseErr (List Value × List Char)
  | 0, _ => .error .outOfFuel
  | fuel + 1, s =>
    match parseValueF fuel s with
    | .error e => .error e
    | .ok (v, s1) =>
      let s2 := skipWhitespace s1
      if peekc s2 = ']' then .ok ([v], s2.drop 1)
      else if peekc s2 = ',' then
        match parseArrayLoopF fuel (s2.drop 1) with
        | .ok (vs, r2) => .ok (v :: vs, r2)
        | .error e => .error e
      else .error (.syntaxError "Expected \x27,\x27 in array")

/-- `JSONParser::parseObject` (fuel-structured): consume `{` (else
`"Expected '{'"`), skip whitespace, return the empty object on an immediate
`}`, otherwise run the member loop with an empty map. -/
def parseObjectF : Nat → List Char → Except ParseErr (List (List Char × Value) × List Char)
  | 0, _ => .error .outOfFuel
  | fuel + 1, s =>
    if peekc s = '\x7b' then
      let r := skipWhitespace (s.drop 1)
      if peekc r = '\x7d' then .ok ([], r.drop 1)
      else parseObjectLoopF fuel [] r
    else .error (.syntaxError "Expected \x27\x7b\x27")

/-- The `while (true)` loop of `JSONParser::parseObject`: skip whitespace,
parse a key string, require `:` (else `"Expected ':' after key"`), parse the
value, store it with `obj[key] = value` (last write wins), then either `}`
ends the object, `,` continues, and anything else raises
`"Expected ',' in object"`. -/
def parseObjectLoopF : Nat → List (List Char × Value) → List Char →
    Except ParseErr (List (List Char × Value) × List Char)
  | 0, _, _ => .error .outOfFuel
  | fuel + 1, acc, s =>
    let s0 := skipWhitespace s
    match parseString s0 with
    | .error e => .error e
    | .ok (key, s1) =>
      let s2 := skipWhitespace s1
      if peekc s2 = ':' then
        match parseValueF fuel (skipWhitespace (s2.drop 1)) with
        | .error e => .error e
        | .ok (v, s4) =>
          let s5 := skipWhitespace s4
          if peekc s5 = '\x7d' then .ok (objInsert acc key v, s5.drop 1)
          else if peekc s5 = ',' then parseObjectLoopF fuel (objInsert acc key v) (s5.drop 1)
          else .error (.syntaxError "Expected \x27,\x27 in object")
      else .error (.syntaxError "Expected \x27:\x27 after key")

end

/-- Fuel supplied by `parse`; `parseValueF_no_fuel_error` shows it suffices for
every input (the C++ recursion is bounded by the cursor never exceeding the
input length). -/
def fuelFor (input : List Char) : Nat :=
  3 * input.length + 3

/-- `JSONParser::parse`: skip whitespace, parse one value, skip whitespace,
and require the input to be exhausted
(else `throw std::runtime_error("Unexpected trailing characters")`). -/
def parse (input : List Char) : Except ParseErr Value :=
  match parseValueF (fuelFor input) (skipWhitespace input) with
  | .ok (v, r) =>
    if skipWhitespace r = [] then .ok v
    else .error (.syntaxError "Unexpected trailing characters")
  | .error e => .error e

/-! ## Serializer (`printJSON`)

`printJSON` writes to `std::cout`; the model returns the character sequence
written.  `std::cout << arg` for a `double` uses the default floating-point
formatting (precision 6, `defaultfloat`), i.e. `printf`'s `%g` with
precision 6; `renderNumber` implements that algorithm on the exact decimal,
with round-half-to-even at the sixth significant digit (ties never arise for
the exactly-representable decimals the claims use). -/

/-- The decimal digit character for `n % 10`. -/
def digitChar (n : ℕ) : Char :=
  match n % 10 with
  | 0 => '0' | 1 => '1' | 2 => '2' | 3 => '3' | 4 => '4'
  | 5 => '5' | 6 => '6' | 7 => '7' | 8 => '8' | _ => '9'

/-- Fuel-structured digit extraction (most significant digit first). -/
def digitsAux : ℕ → ℕ → List Char → List Char
  | 0, _, acc => acc
  | fuel + 1, n, acc =>
    if n < 10 then digitChar n :: acc
    else digitsAux fuel (n / 10) (digitChar n :: acc)

/-- The decimal digits of `n` (so `natDigits 0 = ['0']`). -/
def natDigits (n : ℕ) : List Char :=
  digitsAux (n + 1) n []

/-- The number of decimal digits of `n`. -/
def digitLen (n : ℕ) : ℕ :=
  (natDigits n).length

/-- Remove trailing `'0'` characters (the `%g` suppression of trailing zeros
in the fractional part). -/
def stripZeros (ds : List Char) : List Char :=
  (ds.reverse.dropWhile (· == '0')).reverse

/-- `n / 10 ^ s` rounded half-to-even. -/
def roundDiv (n s : ℕ) : ℕ :=
  let d := 10 ^ s
  let q := n / d
  let r := n % d
  if d < 2 * r then q + 1
  else if 2 * r < d then q
  else if q % 2 = 1 then q + 1 else q

/-- Default `std::cout` formatting of the double `x` (`%g`, precision 6):
round to six significant digits, then use fixed notation when the decimal
exponent lies in `[-4, 5]` (suppressing trailing fractional zeros) and
scientific notation otherwise. -/
def renderNumber (x : DNum) : List Char :=
  if x.mant = 0 then ['0']
  else
    let n := x.mant.natAbs
    let d := digitLen n
    let e0 : ℤ := (d : ℤ) - 1 - (x.scale : ℤ)
    let m0 := if d ≤ 6 then n * 10 ^ (6 - d) else roundDiv n (d - 6)
    let me : ℕ × ℤ := if m0 = 10 ^ 6 then (10 ^ 5, e0 + 1) else (m0, e0)
    let ds := natDigits me.1
    let e := me.2
    let core :=
      if -4 ≤ e ∧ e < 6 then
        if 0 ≤ e then
          let ip := ds.take (e.toNat + 1)
          let fp := stripZeros (ds.drop (e.toNat + 1))
          if fp = [] then ip else ip ++ ('.' :: fp)
        else
          '0' :: '.' :: (List.replicate (-e - 1).toNat '0' ++ stripZeros ds)
      else
        let fp := stripZeros ds.tail
        let mantPart := ds.headD '0' :: (if fp = [] then [] else '.' :: fp)
        let ae := e.natAbs
        let expDigits := if ae < 10 then '0' :: natDigits ae else natDigits ae
        mantPart ++ ('e' :: (if e < 0 then '-' else '+') :: expDigits)
    if x.mant < 0 then '-' :: core else core

/-- `std::string(indent, ' ')`. -/
def spaces (n : ℕ) : List Char :=
  List.replicate n ' '

mutual

/-- `printJSON(val, indent)` from `src/main.cpp`, as the character sequence
written to `std::cout`: `null`/`true`/`false` verbatim, numbers in the
default stream format, strings wrapped in quotes with no re-escaping,
arrays and objects pretty-printed with two extra spaces per nesting level.
The `unordered_map` iteration order is modelled as insertion order. -/
def printJSON : Value → ℕ → List Char
  | .null, _ => ['n', 'u', 'l', 'l']
  | .bool true, _ => ['t', 'r', 'u', 'e']
  | .bool false, _ => ['f', 'a', 'l', 's', 'e']
  | .num x, _ => renderNumber x
  | .str s, _ => '"' :: (s ++ ['"'])
  | .arr items, ind => '[' :: '\n' :: (printItems items ind ++ (spaces ind ++ [']']))
  | .obj ms, ind => '\x7b' :: '\n' :: (printMembers ms ind ++ (spaces ind ++ ['\x7d']))

/-- The element loop of `printJSON` on a `JSONArray`: each element on its own
line at `indent + 2`, a comma after every element but the last. -/
def printItems : List Value → ℕ → List Char
  | [], _ => []
  | [x], ind => spaces (ind + 2) ++ (printJSON x (ind + 2) ++ ['\n'])
  | x :: xs, ind =>
    spaces (ind + 2) ++ (printJSON x (ind + 2) ++ (',' :: '\n' :: printItems xs ind))

/-- The member loop of `printJSON` on a `JSONObject`: each `"key": value`
pair on its own line at `indent + 2`, a comma after every pair but the last. -/
def printMembers : List (List Char × Value) → ℕ → List Char
  | [], _ => []
  | [(k, v)], ind =>
    spaces (ind + 2) ++ ('"' :: (k ++ ('"' :: ':' :: ' ' :: (printJSON v (ind + 2) ++ ['\n']))))
  | (k, v) :: ms, ind =>
    spaces (ind + 2) ++
      ('"' :: (k ++ ('"' :: ':' :: ' ' :: (printJSON v (ind + 2) ++ (',' :: '\n' :: printMembers ms ind)))))

end

/-- `render`, the spec's name for serialization: `printJSON` at top level
(indent 0).  No trailing newline is produced (the `std::endl` in `main` is
the demo driver's, outside the core). -/
def render (v : Value) : List Char :=
  printJSON v 0

/-! ## Spec-side predicates

Decidable, Bool-valued characterisations used to state the claims; these are
not part of the embedded program. -/

/-- Characters that survive the serializer verbatim inside a string literal:
anything except `"` and `\` (which `printJSON` does not re-escape). -/
def noQuoteBackslash (s : List Char) : Bool :=
  s.all fun c => !(c == '"') && !(c == '\\')

/-- Token shape `-? digit+ (. digit+)?` — the spec's number grammar. -/
def isNumToken (t : List Char) : Bool :=
  let p := if peekc t = '-' then t.drop 1 else t
  let ip := p.span cIsDigit
  !(ip.1.isEmpty) &&
    (ip.2.isEmpty ||
      (peekc ip.2 == '.' && !((ip.2.drop 1).isEmpty) && (ip.2.drop 1).all cIsDigit))

/-- A number the serializer reproduces exactly: its default-format rendering
is a grammar-shaped numeric token that `std::stod` converts back to the very
same decimal. -/
def numOk (x : DNum) : Bool :=
  isNumToken (renderNumber x) &&
    (match stodModel (renderNumber x) with
     | .ok y => y == x
     | .error _ => false)

/-- No two members of the association list share a key (always true of a
`std::unordered_map`, where keys are unique). -/
def noDupKeys : List (List Char × Value) → Bool
  | [] => true
  | (k, _) :: rest => !(rest.any fun p => p.1 == k) && noDupKeys rest

/-- The trees of the supported model on which the serializer emits valid JSON:
string payloads and keys contain no `"` or `\`, numbers render exactly, and
object key lists are duplicate-free.  (The counterexample to the unrestricted
round-trip claim is `Value.str ['"']`.) -/
inductive GoodTree : Value → Prop where
  | null : GoodTree .null
  | bool (b : Bool) : GoodTree (.bool b)
  | num (x : DNum) : numOk x = true → GoodTree (.num x)
  | str (s : List Char) : noQuoteBackslash s = true → GoodTree (.str s)
  | arr (items : List Value) : (∀ v ∈ items, GoodTree v) → GoodTree (.arr items)
  | obj (ms : List (List Char × Value)) :
      (∀ kv ∈ ms, noQuoteBackslash kv.1 = true) →
      (∀ kv ∈ ms, GoodTree kv.2) →
      noDupKeys ms = true → GoodTree (.obj ms)

/-- A continuation after a rendered numeric token that cannot extend the
token: end of input, or a character that is neither a digit nor `.`. -/
def goodStop (rest : List Char) : Bool :=
  match rest with
  | [] => true
  | c :: _ => !(cIsDigit c) && !(c == '.')

/-- The keys of an association list. -/
def keysOf (m : List (List Char × Value)) : List (List Char) :=
  m.map Prod.fst

/-- Lookup in the association-list object model. -/
def objFind (m : List (List Char × Value)) (k : List Char) : Option Value :=
  match m with
  | [] => none
  | (k', v) :: rest => if k' = k then some v else objFind rest k

/-- Folding `obj[key] = value` over a member list, as the object loop does. -/
def objInsertAll (acc : List (List Char × Value)) (ms : List (List Char × Value)) :
    List (List Char × Value) :=
  ms.foldl (fun a kv => objInsert a kv.1 kv.2) acc

/-- Spec-side mirror of the string-scan loop on an input with no closing
quote: `some acc` when the body reaches end of input with only valid escapes
(and no unescaped `"`), in which case the parser silently returns `acc`. -/
def untermDecode : List Char → Option (List Char)
  | [] => some []
  | '"' :: _ => none
  | '\\' :: rest =>
    match rest with
    | [] => none
    | n :: rest' =>
      if n = '"' ∨ n = '\\' ∨ n = '/' then
        match untermDecode rest' with
        | some acc => some (n :: acc)
        | none => none
      else if n = 'n' then
        match untermDecode rest' with
        | some acc => some ('\n' :: acc)
        | none => none
      else none
  | c :: rest =>
    match untermDecode rest with
    | some acc => some (c :: acc)
    | none => none

/-- The eight fixed syntax-error messages of §7 (the source spells the
"opening bracket or brace" category as two literals, `'['` and `'{'`). -/
def fixedMessages : List String :=
  ["Unexpected trailing characters",
   "Invalid JSON value",
   "Expected \x27[\x27",
   "Expected \x27\x7b\x27",
   "Expected \x27\"\x27",
   "Invalid escape sequence",
   "Expected \x27:\x27 after key",
   "Expected \x27,\x27 in array",
   "Expected \x27,\x27 in object"]

/-- A failure the spec's §7 catalogue admits: a `SyntaxError` carrying one of
the eight fixed messages. -/
def isFixedSyntaxError (e : ParseErr) : Bool :=
  match e with
  | .syntaxError m => fixedMessages.contains m
  | _ => false

/-- A failure the code can actually produce: a catalogued `SyntaxError`, or
the `std::invalid_argument` or `std::out_of_range` escaping from
`std::stod`. -/
def isRealError (e : ParseErr) : Bool :=
  isFixedSyntaxError e || e == .stodInvalidArgument || e == .stodOutOfRange

/-- The rendered form of a nonempty array's elements as the element loop
consumes it: the first element's indentation already skipped, each later
element preceded by `",\n"` and its indentation
(`printItems items ind = spaces (ind + 2) ++ arrBody items ind` for
nonempty `items`). -/
def arrBody : List Value → ℕ → List Char
  | [], _ => []
  | [x], ind => printJSON x (ind + 2) ++ ['\n']
  | x :: xs, ind =>
    printJSON x (ind + 2) ++ (',' :: '\n' :: (spaces (ind + 2) ++ arrBody xs ind))

/-- The rendered form of a nonempty object's members as the member loop
consumes it, the first member's indentation already skipped
(`printMembers ms ind = spaces (ind + 2) ++ objBody ms ind` for
nonempty `ms`). -/
def objBody : List (List Char × Value) → ℕ → List Char
  | [], _ => []
  | [(k, v)], ind =>
    '"' :: (k ++ ('"' :: ':' :: ' ' :: (printJSON v (ind + 2) ++ ['\n'])))
  | (k, v) :: ms, ind =>
    '"' :: (k ++ ('"' :: ':' :: ' ' :: (printJSON v (ind + 2) ++
      (',' :: '\n' :: (spaces (ind + 2) ++ objBody ms ind)))))

/-- Round-trip property of one good subtree: its rendering, embedded after any
run of whitespace and before any continuation that cannot extend a numeric
token, parses back (with sufficient fuel) to exactly that subtree. -/
def RTP (v : Value) : Prop :=
  ∀ (ind : ℕ) (W rest : List Char),
    (∀ c ∈ W, cIsSpace c = true) → goodStop rest = true →
    ∃ f0, ∀ f, f0 ≤ f →
      parseValueF f (W ++ (printJSON v ind ++ rest)) = .ok (v, rest)

/-! ### One-layer equation lemmas (safe for `simp`) -/

theorem parseStringLoop_nil : parseStringLoop [] = .ok ([], []) := by
  rw [parseStringLoop.eq_def]

theorem parseStringLoop_cons (c : Char) (rest : List Char) :
    parseStringLoop (c :: rest) =
      if c = '"' then .ok ([], rest)
      else if c = '\\' then
        match rest with
        | [] => .error (.syntaxError "Invalid escape sequence")
        | n :: rest' =>
          if n = '"' ∨ n = '\\' ∨ n = '/' then
            match parseStringLoop rest' with
            | .ok (acc, r) => .ok (n :: acc, r)
            | .error e => .error e
          else if n = 'n' then
            match parseStringLoop rest' with
            | .ok (acc, r) => .ok ('\n' :: acc, r)
            | .error e => .error e
          else .error (.syntaxError "Invalid escape sequence")
      else
        match parseStringLoop rest with
        | .ok (acc, r) => .ok (c :: acc, r)
        | .error e => .error e := by
  rw [parseStringLoop.eq_def]

/-! ### Whitespace lemmas -/

theorem skipWhitespace_cons_nonspace {c : Char} (t : List Char)
    (h : cIsSpace c = false) : skipWhitespace (c :: t) = c :: t := by
  simp [skipWhitespace, List.dropWhile_cons, h]

theorem skipWhitespace_allspace_append {A : List Char} (B : List Char)
    (hA : ∀ c ∈ A, cIsSpace c = true) :
    skipWhitespace (A ++ B) = skipWhitespace B := by
  induction A with
  | nil => simp
  | cons a A ih =>
    have ha : cIsSpace a = true := hA a (by simp)
    simp only [List.cons_append, skipWhitespace, List.dropWhile_cons, ha, if_true]
    exact ih fun c hc => hA c (by simp [hc])

theorem skipWhitespace_length_le (s : List Char) :
    (skipWhitespace s).length ≤ s.length :=
  (List.dropWhile_sublist (l := s) (p := cIsSpace)).length_le

theorem skipWhitespace_idem (s : List Char) :
    skipWhitespace (skipWhitespace s) = skipWhitespace s := by
  induction s with
  | nil => rfl
  | cons c t ih =>
    by_cases h : cIsSpace c = true
    · simpa [skipWhitespace, List.dropWhile_cons, h] using ih
    · replace h : cIsSpace c = false := by simpa using h
      simp [skipWhitespace, List.dropWhile_cons, h]

theorem skipWhitespace_eq_nil {s : List Char}
    (h : ∀ c ∈ s, cIsSpace c = true) : skipWhitespace s = [] := by
  simpa using skipWhitespace_allspace_append ([] : List Char) h

/-! ### parseString lemmas -/

theorem parseStringLoop_ok_length :
    ∀ (s a r : List Char), parseStringLoop s = .ok (a, r) → r.length ≤ s.length := by
  intro s
  induction s using parseStringLoop.induct with
  | case1 =>
    intro a r h
    simp [parseStringLoop_nil] at h
    simp [h.2]
  | case2 rest =>
    intro a r h
    simp [parseStringLoop_cons] at h
    simp [h.2, Nat.le_succ]
  | case3 =>
    intro a r h
    simp [parseStringLoop_cons] at h
  | case4 n rest hn acc r0 hok hne ih =>
    intro a r h
    simp [parseStringLoop_cons, hn, hok] at h
    have := ih acc r0 hok
    simp [← h.2]
    omega
  | case5 n rest hn e herr hne ih =>
    intro a r h
    simp [parseStringLoop_cons, hn, herr] at h
  | case6 rest acc r0 hok hne hnn ih =>
    intro a r h
    simp [parseStringLoop_cons, hok] at h
    have := ih acc r0 hok
    simp [← h.2]
    omega
  | case7 rest e herr hne hnn ih =>
    intro a r h
    simp [parseStringLoop_cons, herr] at h
  | case8 n rest hn hnn hne =>
    intro a r h
    simp [parseStringLoop_cons, hn, hnn, hne] at h
  | case9 n rest hq hb acc r0 hok ih =>
    intro a r h
    simp [parseStringLoop_cons, hq, hb, hok] at h
    have := ih acc r0 hok
    simp [← h.2]
    omega
  | case10 n rest hq hb e herr ih =>
    intro a r h
    simp [parseStringLoop_cons, hq, hb, herr] at h

theorem parseString_ok_length {s a r : List Char}
    (h : parseString s = .ok (a, r)) : r.length < s.length := by
  unfold parseString at h
  split at h
  · next rest =>
    have := parseStringLoop_ok_length rest a r h
    simp only [List.length_cons]
    omega
  · simp at h

theorem parseStringLoop_error :
    ∀ (s : List Char) (e : ParseErr), parseStringLoop s = .error e →
      e = .syntaxError "Invalid escape sequence" := by
  intro s
  induction s using parseStringLoop.induct with
  | case1 => intro e h; simp [parseStringLoop_nil] at h
  | case2 rest => intro e h; simp [parseStringLoop_cons] at h
  | case3 => intro e h; simp [parseStringLoop_cons] at h; simp [← h]
  | case4 n rest hn acc r0 hok hne ih =>
    intro e h; simp [parseStringLoop_cons, hn, hok] at h
  | case5 n rest hn e0 herr hne ih =>
    intro e h
    simp [parseStringLoop_cons, hn, herr] at h
    exact h ▸ ih e0 herr
  | case6 rest acc r0 hok hne hnn ih =>
    intro e h; simp [parseStringLoop_cons, hok] at h
  | case7 rest e0 herr hne hnn ih =>
    intro e h
    simp [parseStringLoop_cons, herr] at h
    exact h ▸ ih e0 herr
  | case8 n rest hn hnn hne =>
    intro e h
    simp [parseStringLoop_cons, hn, hnn, hne] at h
    simp [← h]
  | case9 n rest hq hb acc r0 hok ih =>
    intro e h; simp [parseStringLoop_cons, hq, hb, hok] at h
  | case10 n rest hq hb e0 herr ih =>
    intro e h
    simp [parseStringLoop_cons, hq, hb, herr] at h
    exact h ▸ ih e0 herr

theorem parseString_error {s : List Char} {e : ParseErr}
    (h : parseString s = .error e) :
    e = .syntaxError "Expected \x27\"\x27" ∨ e = .syntaxError "Invalid escape sequence" := by
  unfold parseString at h
  split at h
  · next rest => exact Or.inr (parseStringLoop_error rest e h)
  · simp at h
    exact Or.inl h.symm

theorem parseStringLoop_roundtrip {s : List Char} (rest : List Char)
    (h : noQuoteBackslash s = true) :
    parseStringLoop (s ++ '"' :: rest) = .ok (s, rest) := by
  induction s with
  | nil => simp [parseStringLoop_cons]
  | cons c t ih =>
    simp only [noQuoteBackslash, List.all_cons, Bool.and_eq_true, Bool.not_eq_true',
      beq_eq_false_iff_ne, ne_eq] at h
    obtain ⟨⟨h1, h2⟩, h3⟩ := h
    have := ih (by simpa [noQuoteBackslash] using h3)
    simp [List.cons_append, parseStringLoop_cons, h1, h2, this]

theorem untermDecode_some :
    ∀ (s acc : List Char), untermDecode s = some acc → parseStringLoop s = .ok (acc, []) := by
  intro s
  induction s using untermDecode.induct with
  | case1 => intro acc h; simp [untermDecode] at h; subst h; simp [parseStringLoop_nil]
  | case2 rest => intro acc h; simp [untermDecode] at h
  | case3 => intro acc h; simp [untermDecode] at h
  | case4 n rest hn acc0 hsome ih =>
    intro acc h
    simp [untermDecode, hn, hsome] at h
    have := ih acc0 hsome
    have hnq : ¬('\\' : Char) = '"' := by decide
    simp [parseStringLoop_cons, hn, this, ← h]
  | case5 n rest hn hnone ih =>
    intro acc h; simp [untermDecode, hn, hnone] at h
  | case6 rest acc0 hsome hnn ih =>
    intro acc h
    simp [untermDecode, hsome] at h
    have := ih acc0 hsome
    simp [parseStringLoop_cons, this, ← h]
  | case7 rest hnone hnn ih =>
    intro acc h; simp [untermDecode, hnone] at h
  | case8 n rest hn hnn =>
    intro acc h; simp [untermDecode, hn, hnn] at h
  | case9 c rest hq hb acc0 hsome ih =>
    intro acc h
    simp [untermDecode, hq, hb, hsome] at h
    have h2 := ih acc0 hsome
    subst h
    simp only [parseStringLoop_cons, h2]
    rw [if_neg hq, if_neg hb]
  | case10 c rest hq hb hnone ih =>
    intro acc h; simp [untermDecode, hq, hb, hnone] at h

theorem span_eq_spec (p : Char → Bool) (l : List Char) :
    l.span p = (l.takeWhile p, l.dropWhile p) :=
  List.span_eq_take_drop p l

theorem takeWhile_all_append {I X : List Char} {p : Char → Bool}
    (hI : ∀ c ∈ I, p c = true)
    (hX : ∀ c t, X = c :: t → p c = false) :
    (I ++ X).takeWhile p = I ∧ (I ++ X).dropWhile p = X := by
  induction I with
  | nil =>
    cases X with
    | nil => simp
    | cons c t =>
      have := hX c t rfl
      simp [List.takeWhile_cons, List.dropWhile_cons, this]
  | cons a I ih =>
    have ha := hI a (by simp)
    have := ih (fun c hc => hI c (by simp [hc]))
    simp [List.takeWhile_cons, List.dropWhile_cons, ha, this.1, this.2]

theorem cIsDigit_ne_minus {c : Char} (h : cIsDigit c = true) : c ≠ '-' := by
  intro he
  rw [he] at h
  exact absurd h (by decide)

theorem cIsDigit_ne_dot {c : Char} (h : cIsDigit c = true) : c ≠ '.' := by
  intro he
  rw [he] at h
  exact absurd h (by decide)

theorem peekc_shape {s : List Char} {c : Char} (h : peekc s = c) (hc : ¬c = '\x00') :
    s = c :: s.drop 1 := by
  cases s with
  | nil => exact absurd h.symm (by simpa [peekc] using hc)
  | cons a t => simp [peekc] at h; simp [h]

theorem tad (p : Char → Bool) (r : List Char) :
    r.takeWhile p ++ r.dropWhile p = r :=
  List.takeWhile_append_dropWhile p r

theorem scanNumber_token_append (s : List Char) :
    (scanNumber s).1 ++ (scanNumber s).2 = s := by
  unfold scanNumber
  simp only [List.drop_one, span_eq_spec]
  by_cases hm : peekc s = '-'
  · have hs := peekc_shape hm (by decide)
    rw [List.drop_one] at hs
    rw [if_pos hm]
    by_cases hdot : peekc (s.tail.dropWhile cIsDigit) = '.'
    · have hd := peekc_shape hdot (by decide)
      rw [List.drop_one] at hd
      rw [if_pos hdot]
      simp only [List.cons_append, List.nil_append, List.append_assoc]
      conv_rhs => rw [hs]
      congr 1
      calc (s.tail.takeWhile cIsDigit) ++
            ('.' :: ((s.tail.dropWhile cIsDigit).tail.takeWhile cIsDigit ++
              (s.tail.dropWhile cIsDigit).tail.dropWhile cIsDigit))
          = s.tail.takeWhile cIsDigit ++ ('.' :: (s.tail.dropWhile cIsDigit).tail) := by
            rw [tad]
        _ = s.tail.takeWhile cIsDigit ++ s.tail.dropWhile cIsDigit := by
            conv_rhs => rw [hd]
        _ = s.tail := tad _ _
    · rw [if_neg hdot]
      simp only [List.cons_append, List.nil_append]
      conv_rhs => rw [hs]
      congr 1
      exact tad _ _
  · rw [if_neg hm]
    by_cases hdot : peekc (s.dropWhile cIsDigit) = '.'
    · have hd := peekc_shape hdot (by decide)
      rw [List.drop_one] at hd
      rw [if_pos hdot]
      simp only [List.nil_append, List.append_assoc]
      calc (s.takeWhile cIsDigit) ++
            ('.' :: ((s.dropWhile cIsDigit).tail.takeWhile cIsDigit ++
              (s.dropWhile cIsDigit).tail.dropWhile cIsDigit))
          = s.takeWhile cIsDigit ++ ('.' :: (s.dropWhile cIsDigit).tail) := by rw [tad]
        _ = s.takeWhile cIsDigit ++ s.dropWhile cIsDigit := by conv_rhs => rw [hd]
        _ = s := tad _ _
    · rw [if_neg hdot]
      simp only [List.nil_append]
      exact tad _ _

theorem stodModel_nil : stodModel [] = .error .stodInvalidArgument := rfl

theorem stodModel_cases (t : List Char) :
    stodModel t = .error .stodInvalidArgument ∨
      stodModel t = .error .stodOutOfRange ∨ ∃ x, stodModel t = .ok x := by
  unfold stodModel
  dsimp only
  repeat' split
  all_goals first
    | exact Or.inl rfl
    | exact Or.inr (Or.inl rfl)
    | exact Or.inr (Or.inr ⟨_, rfl⟩)

theorem stodModel_ok_ne_nil {t : List Char} {x : DNum} (h : stodModel t = .ok x) :
    t ≠ [] := by
  intro he
  rw [he, stodModel_nil] at h
  exact absurd h (by simp)

theorem stodModel_error {t : List Char} {e : ParseErr} (h : stodModel t = .error e) :
    e = .stodInvalidArgument ∨ e = .stodOutOfRange := by
  rcases stodModel_cases t with hc | hc | ⟨x, hc⟩
  · rw [hc] at h
    exact Or.inl (by simpa using h.symm)
  · rw [hc] at h
    exact Or.inr (by simpa using h.symm)
  · rw [hc] at h
    exact absurd h (by simp)

theorem parseNumber_error {s : List Char} {e : ParseErr}
    (h : parseNumber s = .error e) :
    e = .stodInvalidArgument ∨ e = .stodOutOfRange := by
  unfold parseNumber at h
  split at h
  · simp at h
  · next e0 herr =>
    simp at h
    exact h ▸ stodModel_error herr

theorem parseNumber_ok_length {s : List Char} {x : DNum} {r : List Char}
    (h : parseNumber s = .ok (x, r)) : r.length < s.length := by
  unfold parseNumber at h
  split at h
  · next x0 hok =>
    simp at h
    have htok := scanNumber_token_append s
    have hne := stodModel_ok_ne_nil hok
    have hsum : (scanNumber s).1.length + (scanNumber s).2.length = s.length := by
      have := congrArg List.length htok
      simpa using this
    have hlen : 1 ≤ (scanNumber s).1.length := by
      cases hc : (scanNumber s).1 with
      | nil => exact absurd hc hne
      | cons a b => simp
    rw [← h.2]
    omega
  · simp at h

/-- `std::stod` on a character sequence with no digit anywhere raises
`invalid_argument`. -/
theorem stodModel_no_digit {t : List Char}
    (hnod : ∀ c ∈ t, cIsDigit c = false) :
    stodModel t = .error .stodInvalidArgument := by
  have key : ∀ (p2 : List Char), p2.Sublist t →
      p2.takeWhile cIsDigit = [] ∧
        (if peekc (p2.dropWhile cIsDigit) = '.' then
          (p2.dropWhile cIsDigit).tail.takeWhile cIsDigit else ([] : List Char)) = [] := by
    intro p2 hsub
    have hp2 : ∀ c ∈ p2, cIsDigit c = false := fun c hc => hnod c (hsub.mem hc)
    constructor
    · cases hp : p2.takeWhile cIsDigit with
      | nil => rfl
      | cons a l =>
        have ha : cIsDigit a = true := List.mem_takeWhile_imp (l := p2) (by simp [hp])
        have ham : a ∈ p2 := (List.takeWhile_sublist cIsDigit).mem (by simp [hp])
        rw [hp2 a ham] at ha
        exact absurd ha (by simp)
    · split
      · cases hp : (p2.dropWhile cIsDigit).tail.takeWhile cIsDigit with
        | nil => rfl
        | cons a l =>
          have ha : cIsDigit a = true :=
            List.mem_takeWhile_imp (l := (p2.dropWhile cIsDigit).tail) (by simp [hp])
          have ham : a ∈ p2 := by
            have h1 : a ∈ (p2.dropWhile cIsDigit).tail :=
              (List.takeWhile_sublist cIsDigit).mem (by simp [hp])
            have h2 : ((p2.dropWhile cIsDigit).tail).Sublist (p2.dropWhile cIsDigit) :=
              List.tail_sublist _
            have h3 : (p2.dropWhile cIsDigit).Sublist p2 := List.dropWhile_sublist cIsDigit
            exact h3.mem (h2.mem h1)
          rw [hp2 a ham] at ha
          exact absurd ha (by simp)
      · rfl
  unfold stodModel
  by_cases hm : peekc t = '-'
  · rw [if_pos hm]
    dsimp only
    simp only [span_eq_spec, List.drop_one]
    obtain ⟨h1, h2⟩ := key t.tail (List.tail_sublist t)
    rw [h1, h2]
    simp
  · rw [if_neg hm]
    dsimp only
    simp only [span_eq_spec, List.drop_one]
    obtain ⟨h1, h2⟩ := key t (List.Sublist.refl t)
    rw [h1, h2]
    simp

/-- On a captured token with no digit anywhere, `std::stod` raises
`invalid_argument` and `parseNumber` propagates it. -/
theorem parseNumber_noDigit {s : List Char}
    (h : (scanNumber s).1.any cIsDigit = false) :
    parseNumber s = .error .stodInvalidArgument := by
  have hnod : ∀ c ∈ (scanNumber s).1, cIsDigit c = false := by
    intro c hc
    by_contra hcd
    have : (scanNumber s).1.any cIsDigit = true :=
      List.any_eq_true.mpr ⟨c, hc, by simpa using hcd⟩
    simp [this] at h
  unfold parseNumber
  rw [stodModel_no_digit hnod]

/-- Structure of a token accepted by the spec's number grammar. -/
theorem isNumToken_decomp {t : List Char} (h : isNumToken t = true) :
    ∃ (pre I X : List Char),
      t = pre ++ I ++ X ∧ (pre = [] ∨ pre = ['-']) ∧ I ≠ [] ∧
      (∀ c ∈ I, cIsDigit c = true) ∧
      (X = [] ∨ ∃ f, X = '.' :: f ∧ f ≠ [] ∧ (∀ c ∈ f, cIsDigit c = true)) := by
  unfold isNumToken at h
  by_cases hm : peekc t = '-'
  · rw [if_pos hm] at h
    have hts := peekc_shape hm (by decide)
    simp only [span_eq_spec, Bool.and_eq_true, Bool.not_eq_true', List.isEmpty_eq_false,
      Bool.or_eq_true, List.isEmpty_iff, Bool.and_eq_true] at h
    obtain ⟨hI, hX⟩ := h
    refine ⟨['-'], (t.drop 1).takeWhile cIsDigit, (t.drop 1).dropWhile cIsDigit, ?_,
      Or.inr rfl, hI, fun c hc => List.mem_takeWhile_imp hc, ?_⟩
    · conv_lhs => rw [hts]
      simp [tad]
    · rcases hX with hnil | ⟨⟨hdot, hne⟩, hall⟩
      · exact Or.inl hnil
      · right
        have hshape := peekc_shape (eq_of_beq hdot) (by decide)
        exact ⟨((t.drop 1).dropWhile cIsDigit).drop 1, hshape, hne,
          fun c hc => by
            have := List.all_eq_true.mp hall c hc
            simpa using this⟩
  · rw [if_neg hm] at h
    simp only [span_eq_spec, Bool.and_eq_true, Bool.not_eq_true', List.isEmpty_eq_false,
      Bool.or_eq_true, List.isEmpty_iff, Bool.and_eq_true] at h
    obtain ⟨hI, hX⟩ := h
    refine ⟨[], t.takeWhile cIsDigit, t.dropWhile cIsDigit, ?_,
      Or.inl rfl, hI, fun c hc => List.mem_takeWhile_imp hc, ?_⟩
    · simp [tad]
    · rcases hX with hnil | ⟨⟨hdot, hne⟩, hall⟩
      · exact Or.inl hnil
      · right
        have hshape := peekc_shape (eq_of_beq hdot) (by decide)
        exact ⟨(t.dropWhile cIsDigit).drop 1, hshape, hne,
          fun c hc => by
            have := List.all_eq_true.mp hall c hc
            simpa using this⟩

/-- A grammar-shaped token starts with `-` or a digit. -/
theorem isNumToken_head {t : List Char} (h : isNumToken t = true) :
    ∃ c t2, t = c :: t2 ∧ (c = '-' ∨ cIsDigit c = true) := by
  obtain ⟨pre, I, X, heq, hpre, hIne, hIdig, _⟩ := isNumToken_decomp h
  rcases hpre with rfl | rfl
  · cases I with
    | nil => exact absurd rfl hIne
    | cons c I2 =>
      exact ⟨c, I2 ++ X, by simpa using heq, Or.inr (hIdig c (by simp))⟩
  · exact ⟨'-', I ++ X, by simpa using heq, Or.inl rfl⟩

/-- Scanning a grammar-shaped token followed by a non-extending continuation
captures exactly the token. -/
theorem scanNumber_exact {t rest : List Char}
    (ht : isNumToken t = true) (hrest : goodStop rest = true) :
    scanNumber (t ++ rest) = (t, rest) := by
  obtain ⟨pre, I, X, heq, hpre, hIne, hIdig, hX⟩ := isNumToken_decomp ht
  have hreststop : ∀ c t2, rest = c :: t2 → cIsDigit c = false := by
    intro c t2 hr
    rw [hr] at hrest
    simp only [goodStop, Bool.and_eq_true, Bool.not_eq_true'] at hrest
    exact hrest.1
  have hrestdot : peekc rest ≠ '.' := by
    cases rest with
    | nil => decide
    | cons c t2 =>
      simp only [goodStop, Bool.and_eq_true, Bool.not_eq_true', beq_eq_false_iff_ne] at hrest
      simpa [peekc] using hrest.2
  have hXrest : ∀ c t2, X ++ rest = c :: t2 → cIsDigit c = false := by
    intro c t2 hx
    rcases hX with rfl | ⟨f, rfl, _, _⟩
    · exact hreststop c t2 (by simpa using hx)
    · simp at hx
      rw [← hx.1]
      decide
  have hspan : (I ++ (X ++ rest)).span cIsDigit = (I, X ++ rest) := by
    rw [span_eq_spec]
    have := takeWhile_all_append (p := cIsDigit) hIdig hXrest
    rw [this.1, this.2]
  unfold scanNumber
  rcases hpre with rfl | rfl
  · -- no sign: the head of t is a digit
    have hhead : peekc (t ++ rest) ≠ '-' := by
      cases I with
      | nil => exact absurd rfl hIne
      | cons c I2 =>
        have : cIsDigit c = true := hIdig c (by simp)
        simp only [heq, List.nil_append, List.cons_append, peekc, List.headD_cons]
        exact cIsDigit_ne_minus this
    rw [if_neg hhead]
    dsimp only
    have harr : t ++ rest = I ++ (X ++ rest) := by simp [heq]
    rw [harr, hspan]
    rcases hX with rfl | ⟨f, rfl, hfne, hfdig⟩
    · have : peekc ([] ++ rest) ≠ '.' := by simpa using hrestdot
      rw [if_neg this]
      simp [heq]
    · have hdot : peekc (('.' :: f) ++ rest) = '.' := by simp [peekc]
      rw [if_pos hdot]
      dsimp only
      have hfspan : (f ++ rest).span cIsDigit = (f, rest) := by
        rw [span_eq_spec]
        have := takeWhile_all_append (p := cIsDigit) hfdig hreststop
        rw [this.1, this.2]
      have : (('.' :: f) ++ rest).drop 1 = f ++ rest := by simp
      rw [this, hfspan]
      simp [heq]
  · -- leading '-'
    have hhead : peekc (t ++ rest) = '-' := by
      simp [heq, peekc]
    rw [if_pos hhead]
    dsimp only
    have harr : (t ++ rest).drop 1 = I ++ (X ++ rest) := by simp [heq]
    rw [harr, hspan]
    rcases hX with rfl | ⟨f, rfl, hfne, hfdig⟩
    · have : peekc ([] ++ rest) ≠ '.' := by simpa using hrestdot
      rw [if_neg this]
      simp [heq]
    · have hdot : peekc (('.' :: f) ++ rest) = '.' := by simp [peekc]
      rw [if_pos hdot]
      dsimp only
      have hfspan : (f ++ rest).span cIsDigit = (f, rest) := by
        rw [span_eq_spec]
        have := takeWhile_all_append (p := cIsDigit) hfdig hreststop
        rw [this.1, this.2]
      have : (('.' :: f) ++ rest).drop 1 = f ++ rest := by simp
      rw [this, hfspan]
      simp [heq]

/-- Round trip for numeric tokens: a grammar-shaped token that `std::stod`
maps to `x`, followed by a non-extending continuation, parses to `x`. -/
theorem parseNumber_roundtrip {t rest : List Char} {x : DNum}
    (ht : isNumToken t = true) (hstod : stodModel t = .ok x)
    (hrest : goodStop rest = true) :
    parseNumber (t ++ rest) = .ok (x, rest) := by
  unfold parseNumber
  rw [scanNumber_exact ht hrest]
  dsimp only
  rw [hstod]

/-! ### Object-model lemmas -/

theorem objInsert_not_mem {m : List (List Char × Value)} {k : List Char} (v : Value)
    (h : k ∉ keysOf m) : objInsert m k v = m ++ [(k, v)] := by
  induction m with
  | nil => rfl
  | cons p rest ih =>
    obtain ⟨k', v'⟩ := p
    have hne : k' ≠ k := by
      intro he
      exact h (by simp [keysOf, he])
    simp only [objInsert, if_neg hne, List.cons_append, List.cons.injEq, true_and]
    exact ih (fun hm => h (by simp [keysOf] at hm ⊢; exact Or.inr hm))

theorem keysOf_objInsert (m : List (List Char × Value)) (k : List Char) (v : Value) :
    keysOf (objInsert m k v) =
      if k ∈ keysOf m then keysOf m else keysOf m ++ [k] := by
  induction m with
  | nil => simp [objInsert, keysOf]
  | cons p rest ih =>
    obtain ⟨k', v'⟩ := p
    by_cases he : k' = k
    · subst he
      simp [objInsert, keysOf]
    · simp only [objInsert, if_neg he, keysOf, List.map_cons]
      by_cases hm : k ∈ keysOf rest
      · simp only [keysOf] at hm ih
        simp [hm, ih, he, Ne.symm he]
      · simp only [keysOf] at hm ih
        simp [hm, ih, he, Ne.symm he]

theorem objFind_objInsert (m : List (List Char × Value)) (k : List Char) (v : Value) :
    objFind (objInsert m k v) k = some v := by
  induction m with
  | nil => simp [objInsert, objFind]
  | cons p rest ih =>
    obtain ⟨k', v'⟩ := p
    by_cases he : k' = k
    · subst he
      simp [objInsert, objFind]
    · simp [objInsert, objFind, if_neg he, ih]

theorem noDupKeys_iff (m : List (List Char × Value)) :
    noDupKeys m = true ↔ (keysOf m).Nodup := by
  induction m with
  | nil => simp [noDupKeys, keysOf]
  | cons p rest ih =>
    obtain ⟨k, v⟩ := p
    simp only [noDupKeys, Bool.and_eq_true, Bool.not_eq_true', List.any_eq_false, keysOf,
      List.map_cons, List.nodup_cons, ih]
    constructor
    · rintro ⟨h1, h2⟩
      refine ⟨?_, h2⟩
      intro hk
      simp only [keysOf, List.mem_map] at hk
      obtain ⟨p2, hp2, hpk⟩ := hk
      have := h1 p2 hp2
      simp [hpk] at this
    · rintro ⟨h1, h2⟩
      refine ⟨?_, h2⟩
      intro p2 hp2
      intro he
      refine h1 ?_
      simp only [List.mem_map]
      exact ⟨p2, hp2, eq_of_beq he⟩

theorem objInsertAll_nodup :
    ∀ (ms acc : List (List Char × Value)), noDupKeys (acc ++ ms) = true →
      objInsertAll acc ms = acc ++ ms := by
  intro ms
  induction ms with
  | nil => intro acc _; simp [objInsertAll]
  | cons p ms ih =>
    intro acc h
    obtain ⟨k, v⟩ := p
    have hnodup := (noDupKeys_iff _).mp h
    have hknot : k ∉ keysOf acc := by
      intro hk
      have hsplit : keysOf (acc ++ (k, v) :: ms) = keysOf acc ++ (k :: keysOf ms) := by
        simp [keysOf]
      rw [hsplit, List.nodup_append] at hnodup
      exact hnodup.2.2 hk (by simp)
    have hstep : objInsert acc k v = acc ++ [(k, v)] := objInsert_not_mem v hknot
    have hre : (acc ++ [(k, v)]) ++ ms = acc ++ (k, v) :: ms := by simp
    have h2 : noDupKeys ((acc ++ [(k, v)]) ++ ms) = true := by
      rw [hre]; exact h
    calc objInsertAll acc ((k, v) :: ms)
        = objInsertAll (objInsert acc k v) ms := rfl
      _ = objInsertAll (acc ++ [(k, v)]) ms := by rw [hstep]
      _ = (acc ++ [(k, v)]) ++ ms := ih _ h2
      _ = acc ++ (k, v) :: ms := hre

/-! ### Progress: a successful sub-parse strictly shrinks the remaining input. -/

theorem take4_length {s k : List Char} (hk : k.length = 4) (h : s.take 4 = k) :
    4 ≤ s.length := by
  have := congrArg List.length h
  simp [hk] at this
  omega

theorem parser_progress :
    ∀ f : Nat,
      (∀ s v r, parseValueF f s = .ok (v, r) → r.length < s.length) ∧
      (∀ s a r, parseArrayF f s = .ok (a, r) → r.length < s.length) ∧
      (∀ s a r, parseArrayLoopF f s = .ok (a, r) → r.length < s.length) ∧
      (∀ s m r, parseObjectF f s = .ok (m, r) → r.length < s.length) ∧
      (∀ acc s m r, parseObjectLoopF f acc s = .ok (m, r) → r.length < s.length) := by
  intro f
  induction f with
  | zero =>
    refine ⟨?_, ?_, ?_, ?_, ?_⟩ <;> intros <;> simp_all [parseValueF, parseArrayF,
      parseArrayLoopF, parseObjectF, parseObjectLoopF]
  | succ f ih =>
    obtain ⟨ihv, iha, ihal, iho, ihol⟩ := ih
    have hskip : ∀ s : List Char, (skipWhitespace s).length ≤ s.length :=
      skipWhitespace_length_le
    refine ⟨?_, ?_, ?_, ?_, ?_⟩
    · -- parseValueF
      intro s v r h
      simp only [parseValueF] at h
      have hs := hskip s
      split at h
      · -- string
        split at h
        · next a r2 hps =>
          have := parseString_ok_length hps
          simp only [Except.ok.injEq, Prod.mk.injEq] at h
          obtain ⟨h1, h2⟩ := h
          subst h2
          omega
        · exact absurd h (by simp)
      · split at h
        · -- object
          split at h
          · next m r2 hpo =>
            have := iho _ _ _ hpo
            simp only [Except.ok.injEq, Prod.mk.injEq] at h
            obtain ⟨h1, h2⟩ := h
            subst h2
            omega
          · exact absurd h (by simp)
        · split at h
          · -- array
            split at h
            · next a r2 hpa =>
              have := iha _ _ _ hpa
              simp only [Except.ok.injEq, Prod.mk.injEq] at h
              obtain ⟨h1, h2⟩ := h
              subst h2
              omega
            · exact absurd h (by simp)
          · split at h
            · -- number
              split at h
              · next x r2 hpn =>
                have := parseNumber_ok_length hpn
                simp only [Except.ok.injEq, Prod.mk.injEq] at h
                obtain ⟨h1, h2⟩ := h
                subst h2
                omega
              · exact absurd h (by simp)
            · split at h
              · -- true
                next htk =>
                have h4 : 4 ≤ (skipWhitespace s).length := take4_length (by rfl) htk
                simp only [Except.ok.injEq, Prod.mk.injEq] at h
                obtain ⟨h1, h2⟩ := h
                subst h2
                simp only [List.length_drop]
                omega
              · split at h
                · -- false
                  next htk =>
                  have h5 : 5 ≤ (skipWhitespace s).length := by
                    have := congrArg List.length htk
                    simp [kwFalse] at this
                    omega
                  simp only [Except.ok.injEq, Prod.mk.injEq] at h
                  obtain ⟨h1, h2⟩ := h
                  subst h2
                  simp only [List.length_drop]
                  omega
                · split at h
                  · -- null
                    next htk =>
                    have h4 : 4 ≤ (skipWhitespace s).length := take4_length (by rfl) htk
                    simp only [Except.ok.injEq, Prod.mk.injEq] at h
                    obtain ⟨h1, h2⟩ := h
                    subst h2
                    simp only [List.length_drop]
                    omega
                  · exact absurd h (by simp)
    · -- parseArrayF
      intro s a r h
      simp only [parseArrayF] at h
      split at h
      · next hpk =>
        have hcons := peekc_shape hpk (by decide)
        have hslen : 1 ≤ s.length := by
          rw [hcons]; simp
        have hdrop : (s.drop 1).length = s.length - 1 := by simp
        have hskip2 : (skipWhitespace (s.drop 1)).length ≤ s.length - 1 := by
          have := hskip (s.drop 1)
          omega
        split at h
        · next hpk2 =>
          have hcons2 := peekc_shape hpk2 (by decide)
          simp only [Except.ok.injEq, Prod.mk.injEq] at h
          obtain ⟨h1, h2⟩ := h
          subst h2
          simp only [List.length_drop]
          omega
        · have := ihal _ _ _ h
          omega
      · exact absurd h (by simp)
    · -- parseArrayLoopF
      intro s a r h
      simp only [parseArrayLoopF] at h
      split at h
      · exact absurd h (by simp)
      · next v s1 hval =>
        have hv := ihv _ _ _ hval
        have hs2 : (skipWhitespace s1).length ≤ s1.length := hskip s1
        split at h
        · next hpk =>
          simp only [Except.ok.injEq, Prod.mk.injEq] at h
          obtain ⟨h1, h2⟩ := h
          subst h2
          simp only [List.length_drop]
          omega
        · split at h
          · next hpk =>
            split at h
            · next vs r2 hloop =>
              have := ihal _ _ _ hloop
              simp only [Except.ok.injEq, Prod.mk.injEq] at h
              obtain ⟨h1, h2⟩ := h
              subst h2
              simp only [List.length_drop] at this
              omega
            · exact absurd h (by simp)
          · exact absurd h (by simp)
    · -- parseObjectF
      intro s m r h
      simp only [parseObjectF] at h
      split at h
      · next hpk =>
        have hcons := peekc_shape hpk (by decide)
        have hslen : 1 ≤ s.length := by
          rw [hcons]; simp
        have hskip2 : (skipWhitespace (s.drop 1)).length ≤ s.length - 1 := by
          have := hskip (s.drop 1)
          simp only [List.length_drop] at this
          omega
        split at h
        · next hpk2 =>
          have hcons2 := peekc_shape hpk2 (by decide)
          simp only [Except.ok.injEq, Prod.mk.injEq] at h
          obtain ⟨h1, h2⟩ := h
          subst h2
          simp only [List.length_drop]
          omega
        · have := ihol _ _ _ _ h
          omega
      · exact absurd h (by simp)
    · -- parseObjectLoopF
      intro acc s m r h
      simp only [parseObjectLoopF] at h
      have hs0 : (skipWhitespace s).length ≤ s.length := hskip s
      split at h
      · exact absurd h (by simp)
      · next key s1 hkey =>
        have hk := parseString_ok_length hkey
        have hs2 : (skipWhitespace s1).length ≤ s1.length := hskip s1
        split at h
        · next hcolon =>
          split at h
          · exact absurd h (by simp)
          · next v s4 hval =>
            have hv := ihv _ _ _ hval
            have hs3 : (skipWhitespace ((skipWhitespace s1).drop 1)).length ≤
                (skipWhitespace s1).length - 1 := by
              have := hskip ((skipWhitespace s1).drop 1)
              simp only [List.length_drop] at this
              omega
            have hs5 : (skipWhitespace s4).length ≤ s4.length := hskip s4
            split at h
            · next hpk =>
              simp only [Except.ok.injEq, Prod.mk.injEq] at h
              obtain ⟨h1, h2⟩ := h
              subst h2
              simp only [List.length_drop]
              omega
            · split at h
              · next hpk =>
                have := ihol _ _ _ _ h
                simp only [List.length_drop] at this
                omega
              · exact absurd h (by simp)
        · exact absurd h (by simp)

/-! ### Fuel sufficiency: with fuel exceeding three times the remaining input,
the artificial out-of-fuel outcome is unreachable. -/

theorem parseString_ne_fuel {s : List Char} :
    parseString s ≠ .error .outOfFuel := by
  intro h
  rcases parseString_error h with he | he <;> simp at he

theorem parseNumber_ne_fuel {s : List Char} :
    parseNumber s ≠ .error .outOfFuel := by
  intro h
  have := parseNumber_error h
  simp at this

theorem parser_fuel :
    ∀ f : Nat,
      (∀ s, 3 * s.length + 1 < f → parseValueF f s ≠ .error .outOfFuel) ∧
      (∀ s, 3 * s.length < f → parseArrayF f s ≠ .error .outOfFuel) ∧
      (∀ s, 3 * s.length + 2 < f → parseArrayLoopF f s ≠ .error .outOfFuel) ∧
      (∀ s, 3 * s.length < f → parseObjectF f s ≠ .error .outOfFuel) ∧
      (∀ acc s, 3 * s.length + 2 < f → parseObjectLoopF f acc s ≠ .error .outOfFuel) := by
  intro f
  induction f with
  | zero =>
    refine ⟨?_, ?_, ?_, ?_, ?_⟩ <;> intros <;> omega
  | succ f ih =>
    obtain ⟨ihv, iha, ihal, iho, ihol⟩ := ih
    have hskip : ∀ s : List Char, (skipWhitespace s).length ≤ s.length :=
      skipWhitespace_length_le
    have hprog := parser_progress f
    refine ⟨?_, ?_, ?_, ?_, ?_⟩
    · -- parseValueF
      intro s hf hcontra
      simp only [parseValueF] at hcontra
      have hs := hskip s
      split at hcontra
      · split at hcontra
        · simp at hcontra
        · next e hpe =>
          simp only [Except.error.injEq] at hcontra
          subst hcontra
          exact parseString_ne_fuel hpe
      · split at hcontra
        · split at hcontra
          · simp at hcontra
          · next e hpe =>
            simp only [Except.error.injEq] at hcontra
            subst hcontra
            exact iho (skipWhitespace s) (by omega) hpe
        · split at hcontra
          · split at hcontra
            · simp at hcontra
            · next e hpe =>
              simp only [Except.error.injEq] at hcontra
              subst hcontra
              exact iha (skipWhitespace s) (by omega) hpe
          · split at hcontra
            · split at hcontra
              · simp at hcontra
              · next e hpe =>
                simp only [Except.error.injEq] at hcontra
                subst hcontra
                exact parseNumber_ne_fuel hpe
            · split at hcontra
              · simp at hcontra
              · split at hcontra
                · simp at hcontra
                · split at hcontra
                  · simp at hcontra
                  · simp at hcontra
    · -- parseArrayF
      intro s hf hcontra
      simp only [parseArrayF] at hcontra
      split at hcontra
      · next hpk =>
        have hcons := peekc_shape hpk (by decide)
        have hslen : 1 ≤ s.length := by rw [hcons]; simp
        have hskip2 : (skipWhitespace (s.drop 1)).length ≤ s.length - 1 := by
          have := hskip (s.drop 1)
          simp only [List.length_drop] at this
          omega
        split at hcontra
        · simp at hcontra
        · exact ihal _ (by omega) hcontra
      · simp at hcontra
    · -- parseArrayLoopF
      intro s hf hcontra
      simp only [parseArrayLoopF] at hcontra
      split at hcontra
      · next e hpe =>
        simp only [Except.error.injEq] at hcontra
        subst hcontra
        exact ihv s (by omega) hpe
      · next v s1 hval =>
        have hv := hprog.1 _ _ _ hval
        have hs2 : (skipWhitespace s1).length ≤ s1.length := hskip s1
        split at hcontra
        · simp at hcontra
        · split at hcontra
          · split at hcontra
            · simp at hcontra
            · next e hpe =>
              simp only [Except.error.injEq] at hcontra
              subst hcontra
              refine ihal _ ?_ hpe
              simp only [List.length_drop]
              omega
          · simp at hcontra
    · -- parseObjectF
      intro s hf hcontra
      simp only [parseObjectF] at hcontra
      split at hcontra
      · next hpk =>
        have hcons := peekc_shape hpk (by decide)
        have hslen : 1 ≤ s.length := by rw [hcons]; simp
        have hskip2 : (skipWhitespace (s.drop 1)).length ≤ s.length - 1 := by
          have := hskip (s.drop 1)
          simp only [List.length_drop] at this
          omega
        split at hcontra
        · simp at hcontra
        · exact ihol _ _ (by omega) hcontra
      · simp at hcontra
    · -- parseObjectLoopF
      intro acc s hf hcontra
      simp only [parseObjectLoopF] at hcontra
      have hs0 : (skipWhitespace s).length ≤ s.length := hskip s
      split at hcontra
      · next e hpe =>
        simp only [Except.error.injEq] at hcontra
        subst hcontra
        exact parseString_ne_fuel hpe
      · next key s1 hkey =>
        have hk := parseString_ok_length hkey
        have hs2 : (skipWhitespace s1).length ≤ s1.length := hskip s1
        split at hcontra
        · split at hcontra
          · next e hpe =>
            simp only [Except.error.injEq] at hcontra
            subst hcontra
            have hs3 : (skipWhitespace ((skipWhitespace s1).drop 1)).length ≤
                (skipWhitespace s1).length - 1 := by
              have := hskip ((skipWhitespace s1).drop 1)
              simp only [List.length_drop] at this
              omega
            exact ihv _ (by omega) hpe
          · next v s4 hval =>
            have hv := hprog.1 _ _ _ hval
            have hs3 : (skipWhitespace ((skipWhitespace s1).drop 1)).length ≤
                (skipWhitespace s1).length - 1 := by
              have := hskip ((skipWhitespace s1).drop 1)
              simp only [List.length_drop] at this
              omega
            have hs5 : (skipWhitespace s4).length ≤ s4.length := hskip s4
            split at hcontra
            · simp at hcontra
            · split at hcontra
              · refine ihol _ _ ?_ hcontra
                simp only [List.length_drop]
                omega
              · simp at hcontra
        · simp at hcontra

/-! ### One-layer unfolding equations at successor fuel. -/

theorem parseValueF_succ (f : Nat) (s0 : List Char) :
    parseValueF (f + 1) s0 =
      (let s := skipWhitespace s0
      let c := peekc s
      if c = '"' then
        match parseString s with
        | .ok (a, r) => .ok (.str a, r)
        | .error e => .error e
      else if c = '\x7b' then
        match parseObjectF f s with
        | .ok (m, r) => .ok (.obj m, r)
        | .error e => .error e
      else if c = '[' then
        match parseArrayF f s with
        | .ok (a, r) => .ok (.arr a, r)
        | .error e => .error e
      else if cIsDigit c || c = '-' then
        match parseNumber s with
        | .ok (q, r) => .ok (.num q, r)
        | .error e => .error e
      else if s.take 4 = kwTrue then .ok (.bool true, s.drop 4)
      else if s.take 5 = kwFalse then .ok (.bool false, s.drop 5)
      else if s.take 4 = kwNull then .ok (.null, s.drop 4)
      else .error (.syntaxError "Invalid JSON value")) := by
  simp only [parseValueF]

theorem parseArrayF_succ (f : Nat) (s : List Char) :
    parseArrayF (f + 1) s =
      (if peekc s = '[' then
        let r := skipWhitespace (s.drop 1)
        if peekc r = ']' then .ok ([], r.drop 1)
        else parseArrayLoopF f r
      else .error (.syntaxError "Expected \x27[\x27")) := by
  simp only [parseArrayF]

theorem parseArrayLoopF_succ (f : Nat) (s : List Char) :
    parseArrayLoopF (f + 1) s =
      (match parseValueF f s with
      | .error e => .error e
      | .ok (v, s1) =>
        let s2 := skipWhitespace s1
        if peekc s2 = ']' then .ok ([v], s2.drop 1)
        else if peekc s2 = ',' then
          match parseArrayLoopF f (s2.drop 1) with
          | .ok (vs, r2) => .ok (v :: vs, r2)
          | .error e => .error e
        else .error (.syntaxError "Expected \x27,\x27 in array")) := by
  simp only [parseArrayLoopF]

theorem parseObjectF_succ (f : Nat) (s : List Char) :
    parseObjectF (f + 1) s =
      (if peekc s = '\x7b' then
        let r := skipWhitespace (s.drop 1)
        if peekc r = '\x7d' then .ok ([], r.drop 1)
        else parseObjectLoopF f [] r
      else .error (.syntaxError "Expected \x27\x7b\x27")) := by
  simp only [parseObjectF]

theorem parseObjectLoopF_succ (f : Nat) (acc : List (List Char × Value)) (s : List Char) :
    parseObjectLoopF (f + 1) acc s =
      (let s0 := skipWhitespace s
      match parseString s0 with
      | .error e => .error e
      | .ok (key, s1) =>
        let s2 := skipWhitespace s1
        if peekc s2 = ':' then
          match parseValueF f (skipWhitespace (s2.drop 1)) with
          | .error e => .error e
          | .ok (v, s4) =>
            let s5 := skipWhitespace s4
            if peekc s5 = '\x7d' then .ok (objInsert acc key v, s5.drop 1)
            else if peekc s5 = ',' then parseObjectLoopF f (objInsert acc key v) (s5.drop 1)
            else .error (.syntaxError "Expected \x27,\x27 in object")
        else .error (.syntaxError "Expected \x27:\x27 after key")) := by
  simp only [parseObjectLoopF]

/-! ### Fuel monotonicity: a result other than out-of-fuel is stable under
more fuel. -/

theorem parser_mono :
    ∀ f : Nat,
      (∀ s, parseValueF f s ≠ .error .outOfFuel →
        parseValueF (f + 1) s = parseValueF f s) ∧
      (∀ s, parseArrayF f s ≠ .error .outOfFuel →
        parseArrayF (f + 1) s = parseArrayF f s) ∧
      (∀ s, parseArrayLoopF f s ≠ .error .outOfFuel →
        parseArrayLoopF (f + 1) s = parseArrayLoopF f s) ∧
      (∀ s, parseObjectF f s ≠ .error .outOfFuel →
        parseObjectF (f + 1) s = parseObjectF f s) ∧
      (∀ acc s, parseObjectLoopF f acc s ≠ .error .outOfFuel →
        parseObjectLoopF (f + 1) acc s = parseObjectLoopF f acc s) := by
  intro f
  induction f with
  | zero =>
    refine ⟨?_, ?_, ?_, ?_, ?_⟩ <;> intros <;> simp_all [parseValueF, parseArrayF,
      parseArrayLoopF, parseObjectF, parseObjectLoopF]
  | succ f ih =>
    obtain ⟨ihv, iha, ihal, iho, ihol⟩ := ih
    refine ⟨?_, ?_, ?_, ?_, ?_⟩
    · -- parseValueF
      intro s hne
      rw [parseValueF_succ f s] at hne
      rw [parseValueF_succ (f + 1) s, parseValueF_succ f s]
      simp only at hne ⊢
      by_cases h1 : peekc (skipWhitespace s) = '"'
      · simp only [if_pos h1]
      · simp only [if_neg h1] at hne ⊢
        by_cases h2 : peekc (skipWhitespace s) = '\x7b'
        · simp only [if_pos h2] at hne ⊢
          cases ho : parseObjectF f (skipWhitespace s) with
          | error e =>
            rw [ho] at hne
            have he : e ≠ .outOfFuel := by
              intro hc
              exact hne (by rw [hc])
            have hobj : parseObjectF f (skipWhitespace s) ≠ .error .outOfFuel := by
              rw [ho]
              intro hc
              exact he (by simpa using hc)
            rw [iho _ hobj, ho]
          | ok p =>
            have hobj : parseObjectF f (skipWhitespace s) ≠ .error .outOfFuel := by
              rw [ho]; simp
            rw [iho _ hobj, ho]
        · simp only [if_neg h2] at hne ⊢
          by_cases h3 : peekc (skipWhitespace s) = '['
          · simp only [if_pos h3] at hne ⊢
            cases ha : parseArrayF f (skipWhitespace s) with
            | error e =>
              rw [ha] at hne
              have he : e ≠ .outOfFuel := by
                intro hc
                exact hne (by rw [hc])
              have harr : parseArrayF f (skipWhitespace s) ≠ .error .outOfFuel := by
                rw [ha]
                intro hc
                exact he (by simpa using hc)
              rw [iha _ harr, ha]
            | ok p =>
              have harr : parseArrayF f (skipWhitespace s) ≠ .error .outOfFuel := by
                rw [ha]; simp
              rw [iha _ harr, ha]
          · simp only [if_neg h3]
    · -- parseArrayF
      intro s hne
      rw [parseArrayF_succ f s] at hne
      rw [parseArrayF_succ (f + 1) s, parseArrayF_succ f s]
      simp only at hne ⊢
      by_cases h1 : peekc s = '['
      · simp only [if_pos h1] at hne ⊢
        by_cases h2 : peekc (skipWhitespace (s.drop 1)) = ']'
        · simp only [if_pos h2]
        · simp only [if_neg h2] at hne ⊢
          exact ihal _ hne
      · simp only [if_neg h1]
    · -- parseArrayLoopF
      intro s hne
      rw [parseArrayLoopF_succ f s] at hne
      rw [parseArrayLoopF_succ (f + 1) s, parseArrayLoopF_succ f s]
      simp only at hne ⊢
      cases hval : parseValueF f s with
      | error e =>
        rw [hval] at hne
        have he : e ≠ .outOfFuel := by
          intro hc
          exact hne (by rw [hc])
        have hv : parseValueF f s ≠ .error .outOfFuel := by
          rw [hval]
          intro hc
          exact he (by simpa using hc)
        rw [ihv _ hv, hval]
      | ok p =>
        obtain ⟨v, s1⟩ := p
        have hv : parseValueF f s ≠ .error .outOfFuel := by
          rw [hval]; simp
        rw [ihv _ hv, hval]
        rw [hval] at hne
        by_cases h2 : peekc (skipWhitespace s1) = ']'
        · simp only [if_pos h2]
        · simp only [if_neg h2] at hne ⊢
          by_cases h3 : peekc (skipWhitespace s1) = ','
          · simp only [if_pos h3] at hne ⊢
            cases hloop : parseArrayLoopF f ((skipWhitespace s1).drop 1) with
            | error e =>
              rw [hloop] at hne
              have he : e ≠ .outOfFuel := by
                intro hc
                exact hne (by rw [hc])
              have hl : parseArrayLoopF f ((skipWhitespace s1).drop 1) ≠
                  .error .outOfFuel := by
                rw [hloop]
                intro hc
                exact he (by simpa using hc)
              rw [ihal _ hl, hloop]
            | ok p =>
              have hl : parseArrayLoopF f ((skipWhitespace s1).drop 1) ≠
                  .error .outOfFuel := by
                rw [hloop]; simp
              rw [ihal _ hl, hloop]
          · simp only [if_neg h3]
    · -- parseObjectF
      intro s hne
      rw [parseObjectF_succ f s] at hne
      rw [parseObjectF_succ (f + 1) s, parseObjectF_succ f s]
      simp only at hne ⊢
      by_cases h1 : peekc s = '\x7b'
      · simp only [if_pos h1] at hne ⊢
        by_cases h2 : peekc (skipWhitespace (s.drop 1)) = '\x7d'
        · simp only [if_pos h2]
        · simp only [if_neg h2] at hne ⊢
          exact ihol _ _ hne
      · simp only [if_neg h1]
    · -- parseObjectLoopF
      intro acc s hne
      rw [parseObjectLoopF_succ f acc s] at hne
      rw [parseObjectLoopF_succ (f + 1) acc s, parseObjectLoopF_succ f acc s]
      simp only at hne ⊢
      cases hkey : parseString (skipWhitespace s) with
      | error e => rfl
      | ok p =>
        obtain ⟨key, s1⟩ := p
        rw [hkey] at hne
        by_cases h2 : peekc (skipWhitespace s1) = ':'
        · simp only [if_pos h2] at hne ⊢
          cases hval : parseValueF f (skipWhitespace ((skipWhitespace s1).drop 1)) with
          | error e =>
            rw [hval] at hne
            have he : e ≠ .outOfFuel := by
              intro hc
              exact hne (by rw [hc])
            have hv : parseValueF f (skipWhitespace ((skipWhitespace s1).drop 1)) ≠
                .error .outOfFuel := by
              rw [hval]
              intro hc
              exact he (by simpa using hc)
            rw [ihv _ hv, hval]
          | ok p =>
            obtain ⟨v, s4⟩ := p
            have hv : parseValueF f (skipWhitespace ((skipWhitespace s1).drop 1)) ≠
                .error .outOfFuel := by
              rw [hval]; simp
            rw [ihv _ hv, hval]
            rw [hval] at hne
            by_cases h3 : peekc (skipWhitespace s4) = '\x7d'
            · simp only [if_pos h3]
            · simp only [if_neg h3] at hne ⊢
              by_cases h4 : peekc (skipWhitespace s4) = ','
              · simp only [if_pos h4] at hne ⊢
                exact ihol _ _ hne
              · simp only [if_neg h4]
        · simp only [if_neg h2]

/-! ### Error catalogue: every failure is one of the fixed syntax errors or
the `std::stod` invalid-argument failure (or the fuel artifact). -/

theorem parseString_realError {s : List Char} {e : ParseErr}
    (h : parseString s = .error e) : isRealError e = true := by
  rcases parseString_error h with he | he <;> subst he <;> rfl

theorem parseNumber_realError {s : List Char} {e : ParseErr}
    (h : parseNumber s = .error e) : isRealError e = true := by
  rcases parseNumber_error h with h2 | h2 <;> rw [h2] <;> rfl

theorem parser_errors :
    ∀ f : Nat,
      (∀ s e, parseValueF f s = .error e → e = .outOfFuel ∨ isRealError e = true) ∧
      (∀ s e, parseArrayF f s = .error e → e = .outOfFuel ∨ isRealError e = true) ∧
      (∀ s e, parseArrayLoopF f s = .error e → e = .outOfFuel ∨ isRealError e = true) ∧
      (∀ s e, parseObjectF f s = .error e → e = .outOfFuel ∨ isRealError e = true) ∧
      (∀ acc s e, parseObjectLoopF f acc s = .error e →
        e = .outOfFuel ∨ isRealError e = true) := by
  intro f
  induction f with
  | zero =>
    refine ⟨?_, ?_, ?_, ?_, ?_⟩ <;> intros _ <;>
      simp_all [parseValueF, parseArrayF, parseArrayLoopF, parseObjectF, parseObjectLoopF]
  | succ f ih =>
    obtain ⟨ihv, iha, ihal, iho, ihol⟩ := ih
    refine ⟨?_, ?_, ?_, ?_, ?_⟩
    · -- parseValueF
      intro s e h
      simp only [parseValueF] at h
      split at h
      · split at h
        · simp at h
        · next e0 hpe =>
          simp only [Except.error.injEq] at h
          subst h
          exact Or.inr (parseString_realError hpe)
      · split at h
        · split at h
          · simp at h
          · next e0 hpe =>
            simp only [Except.error.injEq] at h
            subst h
            exact iho _ _ hpe
        · split at h
          · split at h
            · simp at h
            · next e0 hpe =>
              simp only [Except.error.injEq] at h
              subst h
              exact iha _ _ hpe
          · split at h
            · split at h
              · simp at h
              · next e0 hpe =>
                simp only [Except.error.injEq] at h
                subst h
                exact Or.inr (parseNumber_realError hpe)
            · split at h
              · simp at h
              · split at h
                · simp at h
                · split at h
                  · simp at h
                  · simp only [Except.error.injEq] at h
                    subst h
                    exact Or.inr rfl
    · -- parseArrayF
      intro s e h
      simp only [parseArrayF] at h
      split at h
      · split at h
        · simp at h
        · exact ihal _ _ h
      · simp only [Except.error.injEq] at h
        subst h
        exact Or.inr rfl
    · -- parseArrayLoopF
      intro s e h
      simp only [parseArrayLoopF] at h
      split at h
      · next e0 hpe =>
        simp only [Except.error.injEq] at h
        subst h
        exact ihv _ _ hpe
      · next v s1 hval =>
        split at h
        · simp at h
        · split at h
          · split at h
            · simp at h
            · next e0 hpe =>
              simp only [Except.error.injEq] at h
              subst h
              exact ihal _ _ hpe
          · simp only [Except.error.injEq] at h
            subst h
            exact Or.inr rfl
    · -- parseObjectF
      intro s e h
      simp only [parseObjectF] at h
      split at h
      · split at h
        · simp at h
        · exact ihol _ _ _ h
      · simp only [Except.error.injEq] at h
        subst h
        exact Or.inr rfl
    · -- parseObjectLoopF
      intro acc s e h
      simp only [parseObjectLoopF] at h
      split at h
      · next e0 hpe =>
        simp only [Except.error.injEq] at h
        subst h
        exact Or.inr (parseString_realError hpe)
      · next key s1 hkey =>
        split at h
        · split at h
          · next e0 hpe =>
            simp only [Except.error.injEq] at h
            subst h
            exact ihv _ _ hpe
          · next v s4 hval =>
            split at h
            · simp at h
            · split at h
              · exact ihol _ _ _ h
              · simp only [Except.error.injEq] at h
                subst h
                exact Or.inr rfl
        · simp only [Except.error.injEq] at h
          subst h
          exact Or.inr rfl

/-! ### Fuel stability chain and `parse`-level corollaries. -/

theorem parseValueF_stable {f : Nat} {s : List Char}
    (h : parseValueF f s ≠ .error .outOfFuel) :
    ∀ g, f ≤ g → parseValueF g s = parseValueF f s := by
  intro g hg
  induction g, hg using Nat.le_induction with
  | base => rfl
  | succ g hg ihg =>
    have hne : parseValueF g s ≠ .error .outOfFuel := by
      rw [ihg]; exact h
    rw [(parser_mono g).1 s hne, ihg]

theorem parse_fuel_ok (input : List Char) :
    parseValueF (fuelFor input) (skipWhitespace input) ≠ .error .outOfFuel := by
  have hlen : (skipWhitespace input).length ≤ input.length := skipWhitespace_length_le input
  exact (parser_fuel (fuelFor input)).1 (skipWhitespace input) (by
    simp only [fuelFor]
    omega)

/-- `parse` never yields the fuel artifact: the embedded recursion always
completes, mirroring the C++ parser's termination. -/
theorem parse_no_fuel_error (input : List Char) : parse input ≠ .error .outOfFuel := by
  unfold parse
  cases hres : parseValueF (fuelFor input) (skipWhitespace input) with
  | ok p =>
    obtain ⟨v, r⟩ := p
    dsimp only
    split
    · simp
    · simp
  | error e =>
    have := parse_fuel_ok input
    rw [hres] at this
    dsimp only
    intro hc
    simp only [Except.error.injEq] at hc
    exact this (by rw [hc])

/-- Every failure of `parse` is a catalogued syntax error or the `std::stod`
invalid-argument failure. -/
theorem parse_realError {input : List Char} {e : ParseErr}
    (h : parse input = .error e) : isRealError e = true := by
  unfold parse at h
  cases hres : parseValueF (fuelFor input) (skipWhitespace input) with
  | ok p =>
    obtain ⟨v, r⟩ := p
    rw [hres] at h
    dsimp only at h
    split at h
    · simp at h
    · simp only [Except.error.injEq] at h
      subst h
      rfl
  | error e0 =>
    rw [hres] at h
    dsimp only at h
    simp only [Except.error.injEq] at h
    subst h
    rcases (parser_errors (fuelFor input)).1 _ _ hres with hfe | hre
    · subst hfe
      have := parse_fuel_ok input
      exact absurd hres this
    · exact hre

/-! ### Rendering shape lemmas -/

theorem parseString_quote (rest : List Char) :
    parseString ('"' :: rest) = parseStringLoop rest := rfl

theorem spaces_all (n : ℕ) : ∀ c ∈ spaces n, cIsSpace c = true := by
  intro c hc
  simp only [spaces, List.mem_replicate] at hc
  rw [hc.2]
  rfl

theorem nlspaces_all (n : ℕ) : ∀ c ∈ '\n' :: spaces n, cIsSpace c = true := by
  intro c hc
  rcases List.mem_cons.mp hc with rfl | hc2
  · rfl
  · exact spaces_all n c hc2

theorem skipWs_concrete {A B : List Char} (hA : ∀ c ∈ A, cIsSpace c = true)
    {c : Char} {t2 : List Char} (hB : B = c :: t2) (hc : cIsSpace c = false) :
    skipWhitespace (A ++ B) = B := by
  rw [skipWhitespace_allspace_append B hA, hB, skipWhitespace_cons_nonspace t2 hc]

theorem printItems_body :
    ∀ (items : List Value) (ind : ℕ), items ≠ [] →
      printItems items ind = spaces (ind + 2) ++ arrBody items ind := by
  intro items
  induction items with
  | nil => intro ind h; exact absurd rfl h
  | cons x xs ih =>
    intro ind _
    cases xs with
    | nil => simp [printItems, arrBody]
    | cons y ys =>
      have := ih ind (by simp)
      simp only [printItems, arrBody, this]

theorem printMembers_body :
    ∀ (ms : List (List Char × Value)) (ind : ℕ), ms ≠ [] →
      printMembers ms ind = spaces (ind + 2) ++ objBody ms ind := by
  intro ms
  induction ms with
  | nil => intro ind h; exact absurd rfl h
  | cons kv ms ih =>
    intro ind _
    obtain ⟨k, v⟩ := kv
    cases ms with
    | nil => simp [printMembers, objBody]
    | cons kv2 ms2 =>
      have := ih ind (by simp)
      simp only [printMembers, objBody, this]

theorem digit_or_minus_facts {c : Char} (h : c = '-' ∨ cIsDigit c = true) :
    c ≠ '"' ∧ c ≠ '\x7b' ∧ c ≠ '[' ∧ (cIsDigit c || c = '-') = true ∧
      cIsSpace c = false ∧ c ≠ ']' ∧ c ≠ '\x7d' := by
  rcases h with rfl | hd
  · refine ⟨by decide, by decide, by decide, by decide, by decide, by decide, by decide⟩
  · have hne : ∀ c0 : Char, cIsDigit c0 = false → c ≠ c0 := by
      intro c0 hc0 he
      rw [he, hc0] at hd
      exact absurd hd (by simp)
    have hsp : cIsSpace c = false := by
      by_contra hs
      replace hs : cIsSpace c = true := by simpa using hs
      simp only [cIsSpace, Bool.or_eq_true, beq_iff_eq] at hs
      rcases hs with ((((hs | hs) | hs) | hs) | hs) | hs <;> subst hs <;>
        exact absurd hd (by decide)
    exact ⟨hne '"' (by decide), hne '\x7b' (by decide), hne '[' (by decide),
      by simp [hd], hsp, hne ']' (by decide), hne '\x7d' (by decide)⟩

theorem numOk_split {x : DNum} (h : numOk x = true) :
    isNumToken (renderNumber x) = true ∧ stodModel (renderNumber x) = .ok x := by
  unfold numOk at h
  rw [Bool.and_eq_true] at h
  refine ⟨h.1, ?_⟩
  have h2 := h.2
  cases hst : stodModel (renderNumber x) with
  | error e => rw [hst] at h2; simp at h2
  | ok y =>
    rw [hst] at h2
    simp only [beq_iff_eq] at h2
    rw [h2]

/-- The first character of the rendering of a good value: never whitespace and
never a closing bracket or brace. -/
theorem printJSON_starts {v : Value} (hv : GoodTree v) (ind : ℕ) :
    ∃ c t2, printJSON v ind = c :: t2 ∧ cIsSpace c = false ∧ c ≠ ']' ∧ c ≠ '\x7d' := by
  cases hv with
  | null => exact ⟨'n', ['u', 'l', 'l'], by simp [printJSON], by decide, by decide, by decide⟩
  | bool b =>
    cases b
    · exact ⟨'f', ['a', 'l', 's', 'e'], by simp [printJSON], by decide, by decide, by decide⟩
    · exact ⟨'t', ['r', 'u', 'e'], by simp [printJSON], by decide, by decide, by decide⟩
  | num x hx =>
    obtain ⟨htok, _⟩ := numOk_split hx
    obtain ⟨c, t2, heq, hc⟩ := isNumToken_head htok
    have := digit_or_minus_facts hc
    exact ⟨c, t2, by simp [printJSON, heq], this.2.2.2.2.1, this.2.2.2.2.2.1,
      this.2.2.2.2.2.2⟩
  | str s hs =>
    exact ⟨'"', s ++ ['"'], by simp [printJSON], by decide, by decide, by decide⟩
  | arr items hmem =>
    exact ⟨'[', '\n' :: (printItems items ind ++ (spaces ind ++ [']'])),
      by simp [printJSON], by decide, by decide, by decide⟩
  | obj ms h1 h2 h3 =>
    exact ⟨'\x7b', '\n' :: (printMembers ms ind ++ (spaces ind ++ ['\x7d'])),
      by simp [printJSON], by decide, by decide, by decide⟩

/-! ### Round trip: array element loop -/

theorem rt_arrLoop :
    ∀ (items : List Value), items ≠ [] → (∀ v ∈ items, RTP v) →
      ∀ (ind : ℕ) (W rest : List Char), (∀ c ∈ W, cIsSpace c = true) →
        ∃ f0, ∀ f, f0 ≤ f →
          parseArrayLoopF f (W ++ (arrBody items ind ++ (spaces ind ++ (']' :: rest)))) =
            .ok (items, rest) := by
  intro items
  induction items with
  | nil => intro h; exact absurd rfl h
  | cons x xs ih =>
    intro _ hrtp ind W rest hW
    cases xs with
    | nil =>
      -- last element: the rendering continues with "\n", the closing
      -- indentation, and "]"
      obtain ⟨f0, hf0⟩ := hrtp x (by simp) (ind + 2) W
        ('\n' :: (spaces ind ++ (']' :: rest))) hW (by rfl)
      refine ⟨f0 + 1, ?_⟩
      intro f hf
      obtain ⟨g, rfl⟩ : ∃ g, f = g + 1 := ⟨f - 1, by omega⟩
      rw [parseArrayLoopF_succ g]
      have harr : W ++ (arrBody [x] ind ++ (spaces ind ++ (']' :: rest))) =
          W ++ (printJSON x (ind + 2) ++ ('\n' :: (spaces ind ++ (']' :: rest)))) := by
        simp [arrBody]
      rw [harr, hf0 g (by omega)]
      dsimp only
      have hskip : skipWhitespace ('\n' :: (spaces ind ++ (']' :: rest))) = ']' :: rest := by
        have : ('\n' :: (spaces ind ++ (']' :: rest))) =
            ('\n' :: spaces ind) ++ (']' :: rest) := by simp
        rw [this]
        exact skipWs_concrete (nlspaces_all ind) rfl (by decide)
      rw [hskip]
      simp [peekc]
    | cons y ys =>
      obtain ⟨f1, hf1⟩ := ih (by simp) (fun v hv => hrtp v (by simp [hv])) ind
        ('\n' :: spaces (ind + 2)) rest (nlspaces_all (ind + 2))
      obtain ⟨f0, hf0⟩ := hrtp x (by simp) (ind + 2) W
        (',' :: ('\n' :: (spaces (ind + 2) ++ (arrBody (y :: ys) ind ++
          (spaces ind ++ (']' :: rest)))))) hW (by rfl)
      refine ⟨max f0 f1 + 1, ?_⟩
      intro f hf
      obtain ⟨g, rfl⟩ : ∃ g, f = g + 1 := ⟨f - 1, by omega⟩
      rw [parseArrayLoopF_succ g]
      have harr : W ++ (arrBody (x :: y :: ys) ind ++ (spaces ind ++ (']' :: rest))) =
          W ++ (printJSON x (ind + 2) ++
            (',' :: ('\n' :: (spaces (ind + 2) ++ (arrBody (y :: ys) ind ++
              (spaces ind ++ (']' :: rest))))))) := by
        simp [arrBody]
      rw [harr, hf0 g (by omega)]
      dsimp only
      have hskip : skipWhitespace
          (',' :: ('\n' :: (spaces (ind + 2) ++ (arrBody (y :: ys) ind ++
            (spaces ind ++ (']' :: rest)))))) =
          ',' :: ('\n' :: (spaces (ind + 2) ++ (arrBody (y :: ys) ind ++
            (spaces ind ++ (']' :: rest))))) :=
        skipWhitespace_cons_nonspace _ (by decide)
      rw [hskip]
      have hpk1 : peekc (',' :: ('\n' :: (spaces (ind + 2) ++ (arrBody (y :: ys) ind ++
          (spaces ind ++ (']' :: rest)))))) = ',' := rfl
      rw [hpk1]
      rw [if_neg (by decide), if_pos rfl]
      have hdrop : (',' :: ('\n' :: (spaces (ind + 2) ++ (arrBody (y :: ys) ind ++
          (spaces ind ++ (']' :: rest)))))).drop 1 =
          ('\n' :: spaces (ind + 2)) ++ (arrBody (y :: ys) ind ++
            (spaces ind ++ (']' :: rest))) := by
        simp
      rw [hdrop, hf1 g (by omega)]

/-- `parseValue` begins by skipping whitespace, so pre-skipping is absorbed. -/
theorem parseValueF_skipWs (f : ℕ) (x : List Char) :
    parseValueF f (skipWhitespace x) = parseValueF f x := by
  cases f with
  | zero => rfl
  | succ f =>
    rw [parseValueF_succ f (skipWhitespace x), parseValueF_succ f x,
      skipWhitespace_idem x]

/-! ### Round trip: object member loop -/

theorem rt_objLoop :
    ∀ (ms : List (List Char × Value)), ms ≠ [] →
      (∀ kv ∈ ms, noQuoteBackslash kv.1 = true) →
      (∀ kv ∈ ms, RTP kv.2) →
      ∀ (ind : ℕ) (acc : List (List Char × Value)) (W rest : List Char),
        (∀ c ∈ W, cIsSpace c = true) →
        ∃ f0, ∀ f, f0 ≤ f →
          parseObjectLoopF f acc
              (W ++ (objBody ms ind ++ (spaces ind ++ ('\x7d' :: rest)))) =
            .ok (objInsertAll acc ms, rest) := by
  intro ms
  induction ms with
  | nil => intro h; exact absurd rfl h
  | cons kv ms ih =>
    intro _ hkeys hrtp ind acc W rest hW
    obtain ⟨k, v⟩ := kv
    have hkq : noQuoteBackslash k = true := hkeys (k, v) (by simp)
    cases ms with
    | nil =>
      obtain ⟨f0, hf0⟩ := hrtp (k, v) (by simp) (ind + 2) [' ']
        ('\n' :: (spaces ind ++ ('\x7d' :: rest))) (by intro c hc; simp at hc; rw [hc]; rfl)
        (by rfl)
      refine ⟨f0 + 1, ?_⟩
      intro f hf
      obtain ⟨g, rfl⟩ : ∃ g, f = g + 1 := ⟨f - 1, by omega⟩
      rw [parseObjectLoopF_succ g]
      dsimp only
      have hform : W ++ (objBody [(k, v)] ind ++ (spaces ind ++ ('\x7d' :: rest))) =
          W ++ ('"' :: (k ++ ('"' :: (':' :: ' ' :: (printJSON v (ind + 2) ++
            ('\n' :: (spaces ind ++ ('\x7d' :: rest)))))))) := by
        simp [objBody]
      rw [hform]
      have hskip0 : skipWhitespace (W ++ ('"' :: (k ++ ('"' :: (':' :: ' ' ::
          (printJSON v (ind + 2) ++ ('\n' :: (spaces ind ++ ('\x7d' :: rest))))))))) =
          '"' :: (k ++ ('"' :: (':' :: ' ' :: (printJSON v (ind + 2) ++
            ('\n' :: (spaces ind ++ ('\x7d' :: rest))))))) :=
        skipWs_concrete hW rfl (by decide)
      rw [hskip0, parseString_quote,
        parseStringLoop_roundtrip (':' :: ' ' :: (printJSON v (ind + 2) ++
          ('\n' :: (spaces ind ++ ('\x7d' :: rest))))) hkq]
      dsimp only
      have hskip1 : skipWhitespace (':' :: ' ' :: (printJSON v (ind + 2) ++
          ('\n' :: (spaces ind ++ ('\x7d' :: rest))))) =
          ':' :: ' ' :: (printJSON v (ind + 2) ++
            ('\n' :: (spaces ind ++ ('\x7d' :: rest)))) :=
        skipWhitespace_cons_nonspace _ (by decide)
      rw [hskip1]
      rw [show peekc (':' :: ' ' :: (printJSON v (ind + 2) ++
        ('\n' :: (spaces ind ++ ('\x7d' :: rest))))) = ':' from rfl]
      rw [if_pos rfl]
      have hdrop1 : (':' :: ' ' :: (printJSON v (ind + 2) ++
          ('\n' :: (spaces ind ++ ('\x7d' :: rest))))).drop 1 =
          [' '] ++ (printJSON v (ind + 2) ++ ('\n' :: (spaces ind ++ ('\x7d' :: rest)))) := by
        simp
      rw [hdrop1, parseValueF_skipWs, hf0 g (by omega)]
      dsimp only
      have hskip2 : skipWhitespace ('\n' :: (spaces ind ++ ('\x7d' :: rest))) =
          '\x7d' :: rest := by
        have : ('\n' :: (spaces ind ++ ('\x7d' :: rest))) =
            ('\n' :: spaces ind) ++ ('\x7d' :: rest) := by simp
        rw [this]
        exact skipWs_concrete (nlspaces_all ind) rfl (by decide)
      rw [hskip2]
      simp [peekc, objInsertAll]
    | cons kv2 ms2 =>
      obtain ⟨f1, hf1⟩ := ih (by simp) (fun p hp => hkeys p (by simp [hp]))
        (fun p hp => hrtp p (by simp [hp])) ind (objInsert acc k v)
        ('\n' :: spaces (ind + 2)) rest (nlspaces_all (ind + 2))
      obtain ⟨f0, hf0⟩ := hrtp (k, v) (by simp) (ind + 2) [' ']
        (',' :: ('\n' :: (spaces (ind + 2) ++ (objBody (kv2 :: ms2) ind ++
          (spaces ind ++ ('\x7d' :: rest))))))
        (by intro c hc; simp at hc; rw [hc]; rfl) (by rfl)
      refine ⟨max f0 f1 + 1, ?_⟩
      intro f hf
      obtain ⟨g, rfl⟩ : ∃ g, f = g + 1 := ⟨f - 1, by omega⟩
      rw [parseObjectLoopF_succ g]
      dsimp only
      have hform : W ++ (objBody ((k, v) :: kv2 :: ms2) ind ++
          (spaces ind ++ ('\x7d' :: rest))) =
          W ++ ('"' :: (k ++ ('"' :: (':' :: ' ' :: (printJSON v (ind + 2) ++
            (',' :: ('\n' :: (spaces (ind + 2) ++ (objBody (kv2 :: ms2) ind ++
              (spaces ind ++ ('\x7d' :: rest))))))))))) := by
        simp [objBody]
      rw [hform]
      have hskip0 : skipWhitespace (W ++ ('"' :: (k ++ ('"' :: (':' :: ' ' ::
          (printJSON v (ind + 2) ++ (',' :: ('\n' :: (spaces (ind + 2) ++
            (objBody (kv2 :: ms2) ind ++ (spaces ind ++ ('\x7d' :: rest)))))))))))) =
          '"' :: (k ++ ('"' :: (':' :: ' ' :: (printJSON v (ind + 2) ++
            (',' :: ('\n' :: (spaces (ind + 2) ++ (objBody (kv2 :: ms2) ind ++
              (spaces ind ++ ('\x7d' :: rest)))))))))) :=
        skipWs_concrete hW rfl (by decide)
      rw [hskip0, parseString_quote,
        parseStringLoop_roundtrip (':' :: ' ' :: (printJSON v (ind + 2) ++
          (',' :: ('\n' :: (spaces (ind + 2) ++ (objBody (kv2 :: ms2) ind ++
            (spaces ind ++ ('\x7d' :: rest)))))))) hkq]
      dsimp only
      have hskip1 : skipWhitespace (':' :: ' ' :: (printJSON v (ind + 2) ++
          (',' :: ('\n' :: (spaces (ind + 2) ++ (objBody (kv2 :: ms2) ind ++
            (spaces ind ++ ('\x7d' :: rest)))))))) =
          ':' :: ' ' :: (printJSON v (ind + 2) ++
            (',' :: ('\n' :: (spaces (ind + 2) ++ (objBody (kv2 :: ms2) ind ++
              (spaces ind ++ ('\x7d' :: rest))))))) :=
        skipWhitespace_cons_nonspace _ (by decide)
      rw [hskip1]
      rw [show peekc (':' :: ' ' :: (printJSON v (ind + 2) ++
        (',' :: ('\n' :: (spaces (ind + 2) ++ (objBody (kv2 :: ms2) ind ++
          (spaces ind ++ ('\x7d' :: rest)))))))) = ':' from rfl]
      rw [if_pos rfl]
      have hdrop1 : (':' :: ' ' :: (printJSON v (ind + 2) ++
          (',' :: ('\n' :: (spaces (ind + 2) ++ (objBody (kv2 :: ms2) ind ++
            (spaces ind ++ ('\x7d' :: rest)))))))).drop 1 =
          [' '] ++ (printJSON v (ind + 2) ++ (',' :: ('\n' :: (spaces (ind + 2) ++
            (objBody (kv2 :: ms2) ind ++ (spaces ind ++ ('\x7d' :: rest))))))) := by
        simp
      rw [hdrop1, parseValueF_skipWs, hf0 g (by omega)]
      dsimp only
      have hskip2 : skipWhitespace (',' :: ('\n' :: (spaces (ind + 2) ++
          (objBody (kv2 :: ms2) ind ++ (spaces ind ++ ('\x7d' :: rest)))))) =
          ',' :: ('\n' :: (spaces (ind + 2) ++ (objBody (kv2 :: ms2) ind ++
            (spaces ind ++ ('\x7d' :: rest))))) :=
        skipWhitespace_cons_nonspace _ (by decide)
      rw [hskip2]
      rw [show peekc (',' :: ('\n' :: (spaces (ind + 2) ++ (objBody (kv2 :: ms2) ind ++
        (spaces ind ++ ('\x7d' :: rest)))))) = ',' from rfl]
      rw [if_neg (by decide), if_pos rfl]
      have hdrop2 : (',' :: ('\n' :: (spaces (ind + 2) ++ (objBody (kv2 :: ms2) ind ++
          (spaces ind ++ ('\x7d' :: rest)))))).drop 1 =
          ('\n' :: spaces (ind + 2)) ++ (objBody (kv2 :: ms2) ind ++
            (spaces ind ++ ('\x7d' :: rest))) := by
        simp
      rw [hdrop2, hf1 g (by omega)]
      rfl

/-! ### Round trip: main theorem -/

set_option maxHeartbeats 16000000 in
theorem rt_value : ∀ {v : Value}, GoodTree v → RTP v := by
  intro v hv
  induction hv with
  | null =>
    intro ind W rest hW hrest
    refine ⟨1, ?_⟩
    intro f hf
    obtain ⟨g, rfl⟩ : ∃ g, f = g + 1 := ⟨f - 1, by omega⟩
    rw [parseValueF_succ g]
    simp only [printJSON, List.cons_append, List.nil_append]
    simp only [skipWs_concrete hW rfl (by decide : cIsSpace 'n' = false)]
    simp only [peekc, List.headD_cons]
    rw [if_neg (by decide), if_neg (by decide), if_neg (by decide),
      if_neg (by decide : ¬((cIsDigit 'n' || decide ('n' = '-')) = true))]
    rw [if_neg (by simp [kwTrue]), if_neg (by simp [kwFalse]), if_pos (by simp [kwNull])]
    simp
  | bool b =>
    intro ind W rest hW hrest
    refine ⟨1, ?_⟩
    intro f hf
    obtain ⟨g, rfl⟩ : ∃ g, f = g + 1 := ⟨f - 1, by omega⟩
    rw [parseValueF_succ g]
    cases b with
    | true =>
      simp only [printJSON, List.cons_append, List.nil_append]
      simp only [skipWs_concrete hW rfl (by decide : cIsSpace 't' = false)]
      simp only [peekc, List.headD_cons]
      rw [if_neg (by decide), if_neg (by decide), if_neg (by decide),
        if_neg (by decide : ¬((cIsDigit 't' || decide ('t' = '-')) = true))]
      rw [if_pos (by simp [kwTrue])]
      simp
    | false =>
      simp only [printJSON, List.cons_append, List.nil_append]
      simp only [skipWs_concrete hW rfl (by decide : cIsSpace 'f' = false)]
      simp only [peekc, List.headD_cons]
      rw [if_neg (by decide), if_neg (by decide), if_neg (by decide),
        if_neg (by decide : ¬((cIsDigit 'f' || decide ('f' = '-')) = true))]
      rw [if_neg (by simp [kwTrue]), if_pos (by simp [kwFalse])]
      simp
  | num x hx =>
    intro ind W rest hW hrest
    obtain ⟨htok, hstod⟩ := numOk_split hx
    obtain ⟨c, t2, heq, hc⟩ := isNumToken_head htok
    obtain ⟨hq, hbr, hbk, hdig, hsp, _, _⟩ := digit_or_minus_facts hc
    refine ⟨1, ?_⟩
    intro f hf
    obtain ⟨g, rfl⟩ : ∃ g, f = g + 1 := ⟨f - 1, by omega⟩
    rw [parseValueF_succ g]
    simp only [printJSON]
    have hform : renderNumber x ++ rest = c :: (t2 ++ rest) := by
      rw [heq]; simp
    simp only [hform]
    simp only [skipWs_concrete hW rfl hsp]
    simp only [peekc, List.headD_cons]
    rw [if_neg hq, if_neg hbr, if_neg hbk, if_pos hdig]
    simp only [← hform]
    rw [parseNumber_roundtrip htok hstod hrest]
  | str s hs =>
    intro ind W rest hW hrest
    refine ⟨1, ?_⟩
    intro f hf
    obtain ⟨g, rfl⟩ : ∃ g, f = g + 1 := ⟨f - 1, by omega⟩
    have hinput : W ++ (printJSON (.str s) ind ++ rest) =
        W ++ ('"' :: (s ++ ('"' :: rest))) := by
      simp [printJSON]
    rw [hinput]
    rw [parseValueF_succ g]
    simp only [skipWs_concrete hW rfl (by decide : cIsSpace '"' = false)]
    simp only [peekc, List.headD_cons]
    rw [if_pos trivial, parseString_quote, parseStringLoop_roundtrip rest hs]
  | arr items hmem ihmem =>
    intro ind W rest hW hrest
    cases items with
    | nil =>
      refine ⟨2, ?_⟩
      intro f hf
      obtain ⟨g, rfl⟩ : ∃ g, f = g + 2 := ⟨f - 2, by omega⟩
      rw [show g + 2 = (g + 1) + 1 from rfl, parseValueF_succ (g + 1)]
      simp only [printJSON, printItems, List.cons_append, List.nil_append]
      simp only [skipWs_concrete hW rfl (by decide : cIsSpace '[' = false)]
      simp only [peekc, List.headD_cons]
      rw [if_neg (by decide), if_neg (by decide), if_pos (by trivial)]
      rw [parseArrayF_succ g]
      simp only [peekc, List.headD_cons]
      rw [if_pos (by trivial)]
      have hdrop : ('[' :: '\n' :: (spaces ind ++ [']'] ++ rest)).drop 1 =
          ('\n' :: spaces ind) ++ (']' :: rest) := by simp
      simp only [hdrop]
      simp only [skipWs_concrete (nlspaces_all ind) rfl (by decide : cIsSpace ']' = false)]
      simp only [peekc, List.headD_cons]
      rw [if_pos (by trivial)]
      simp
    | cons x xs =>
      obtain ⟨f1, hf1⟩ := rt_arrLoop (x :: xs) (by simp) (fun v hvm => ihmem v hvm) ind
        [] rest (by intro c hc; simp at hc)
      obtain ⟨c0, t0, hc0, hc0sp, hc0br, _⟩ :=
        printJSON_starts (hmem x (by simp)) (ind + 2)
      obtain ⟨tB, hB⟩ : ∃ tB,
          arrBody (x :: xs) ind ++ (spaces ind ++ (']' :: rest)) = c0 :: tB := by
        cases xs with
        | nil =>
          exact ⟨t0 ++ ('\n' :: (spaces ind ++ (']' :: rest))), by simp [arrBody, hc0]⟩
        | cons y ys =>
          exact ⟨t0 ++ (',' :: '\n' :: (spaces (ind + 2) ++ (arrBody (y :: ys) ind ++
            (spaces ind ++ (']' :: rest))))), by simp [arrBody, hc0]⟩
      refine ⟨f1 + 2, ?_⟩
      intro f hf
      obtain ⟨g, rfl⟩ : ∃ g, f = g + 2 := ⟨f - 2, by omega⟩
      have hinput : W ++ (printJSON (.arr (x :: xs)) ind ++ rest) =
          W ++ ('[' :: ('\n' :: (spaces (ind + 2) ++ (arrBody (x :: xs) ind ++
            (spaces ind ++ (']' :: rest)))))) := by
        simp only [printJSON]
        rw [printItems_body (x :: xs) ind (by simp)]
        simp [List.append_assoc]
      rw [hinput]
      rw [show g + 2 = (g + 1) + 1 from rfl, parseValueF_succ (g + 1)]
      simp only [skipWs_concrete hW rfl (by decide : cIsSpace '[' = false)]
      simp only [peekc, List.headD_cons]
      rw [if_neg (by decide), if_neg (by decide), if_pos (by trivial)]
      rw [parseArrayF_succ g]
      simp only [peekc, List.headD_cons]
      rw [if_pos (by trivial)]
      have hdrop : ('[' :: ('\n' :: (spaces (ind + 2) ++ (arrBody (x :: xs) ind ++
          (spaces ind ++ (']' :: rest)))))).drop 1 =
          ('\n' :: spaces (ind + 2)) ++ (arrBody (x :: xs) ind ++
            (spaces ind ++ (']' :: rest))) := by simp
      simp only [hdrop]
      simp only [skipWs_concrete (nlspaces_all (ind + 2)) hB hc0sp]
      rw [hB]
      simp only [peekc, List.headD_cons]
      rw [if_neg hc0br, ← hB]
      have := hf1 g (by omega)
      simp only [List.nil_append] at this
      rw [this]
  | obj ms hkeys hmem hnodup ihmem =>
    intro ind W rest hW hrest
    cases ms with
    | nil =>
      refine ⟨2, ?_⟩
      intro f hf
      obtain ⟨g, rfl⟩ : ∃ g, f = g + 2 := ⟨f - 2, by omega⟩
      rw [show g + 2 = (g + 1) + 1 from rfl, parseValueF_succ (g + 1)]
      simp only [printJSON, printMembers, List.cons_append, List.nil_append]
      simp only [skipWs_concrete hW rfl (by decide : cIsSpace '\x7b' = false)]
      simp only [peekc, List.headD_cons]
      rw [if_neg (by decide), if_pos (by trivial)]
      rw [parseObjectF_succ g]
      simp only [peekc, List.headD_cons]
      rw [if_pos (by trivial)]
      have hdrop : ('\x7b' :: '\n' :: (spaces ind ++ ['\x7d'] ++ rest)).drop 1 =
          ('\n' :: spaces ind) ++ ('\x7d' :: rest) := by simp
      simp only [hdrop]
      simp only [skipWs_concrete (nlspaces_all ind) rfl (by decide : cIsSpace '\x7d' = false)]
      simp only [peekc, List.headD_cons]
      rw [if_pos (by trivial)]
      simp
    | cons kv ms2 =>
      obtain ⟨f1, hf1⟩ := rt_objLoop (kv :: ms2) (by simp) hkeys
        (fun p hp => ihmem p hp) ind [] [] rest (by intro c hc; simp at hc)
      refine ⟨f1 + 2, ?_⟩
      intro f hf
      obtain ⟨g, rfl⟩ : ∃ g, f = g + 2 := ⟨f - 2, by omega⟩
      obtain ⟨k, v⟩ := kv
      obtain ⟨tB, hB⟩ : ∃ tB,
          objBody ((k, v) :: ms2) ind ++ (spaces ind ++ ('\x7d' :: rest)) = '"' :: tB := by
        cases ms2 with
        | nil =>
          exact ⟨k ++ ('"' :: ':' :: ' ' :: (printJSON v (ind + 2) ++
            ('\n' :: (spaces ind ++ ('\x7d' :: rest))))), by simp [objBody]⟩
        | cons kv2 ms3 =>
          exact ⟨k ++ ('"' :: ':' :: ' ' :: (printJSON v (ind + 2) ++
            (',' :: '\n' :: (spaces (ind + 2) ++ (objBody (kv2 :: ms3) ind ++
              (spaces ind ++ ('\x7d' :: rest))))))), by simp [objBody]⟩
      have hinput : W ++ (printJSON (.obj ((k, v) :: ms2)) ind ++ rest) =
          W ++ ('\x7b' :: ('\n' :: (spaces (ind + 2) ++ (objBody ((k, v) :: ms2) ind ++
            (spaces ind ++ ('\x7d' :: rest)))))) := by
        simp only [printJSON]
        rw [printMembers_body ((k, v) :: ms2) ind (by simp)]
        simp [List.append_assoc]
      rw [hinput]
      rw [show g + 2 = (g + 1) + 1 from rfl, parseValueF_succ (g + 1)]
      simp only [skipWs_concrete hW rfl (by decide : cIsSpace '\x7b' = false)]
      simp only [peekc, List.headD_cons]
      rw [if_neg (by decide), if_pos (by trivial)]
      rw [parseObjectF_succ g]
      simp only [peekc, List.headD_cons]
      rw [if_pos (by trivial)]
      have hdrop : ('\x7b' :: ('\n' :: (spaces (ind + 2) ++ (objBody ((k, v) :: ms2) ind ++
          (spaces ind ++ ('\x7d' :: rest)))))).drop 1 =
          ('\n' :: spaces (ind + 2)) ++ (objBody ((k, v) :: ms2) ind ++
            (spaces ind ++ ('\x7d' :: rest))) := by simp
      simp only [hdrop]
      simp only [skipWs_concrete (nlspaces_all (ind + 2)) hB
        (by decide : cIsSpace '"' = false)]
      rw [hB]
      simp only [peekc, List.headD_cons]
      rw [if_neg (by decide), ← hB]
      have := hf1 g (by omega)
      simp only [List.nil_append] at this
      rw [this]
      have hnodup2 : noDupKeys ([] ++ ((k, v) :: ms2)) = true := by
        simpa using hnodup
      rw [objInsertAll_nodup ((k, v) :: ms2) [] hnodup2]
      simp

/-! ### Round trip through the top-level `parse` -/

theorem parse_render {v : Value} (h : GoodTree v) : parse (render v) = .ok v := by
  obtain ⟨f0, hf0⟩ := rt_value h 0 [] [] (by intro c hc; simp at hc) rfl
  have hF : parseValueF (max (fuelFor (render v)) f0) (render v) = .ok (v, []) := by
    have := hf0 (max (fuelFor (render v)) f0) (le_max_right _ _)
    simpa [render] using this
  have hnf : parseValueF (fuelFor (render v)) (render v) ≠ .error .outOfFuel := by
    rw [← parseValueF_skipWs]
    exact parse_fuel_ok (render v)
  have hstable := parseValueF_stable hnf (max (fuelFor (render v)) f0) (le_max_left _ _)
  have hmain : parseValueF (fuelFor (render v)) (render v) = .ok (v, []) := by
    rw [← hstable, hF]
  unfold parse
  rw [parseValueF_skipWs, hmain]
  rfl

/-! ### Helper lemmas for the claims -/

theorem parseStringLoop_escape (n : Char) (rest : List Char) :
    parseStringLoop ('\\' :: n :: rest) =
      (if n = '"' ∨ n = '\\' ∨ n = '/' then
        match parseStringLoop rest with
        | .ok (acc, r) => .ok (n :: acc, r)
        | .error e => .error e
      else if n = 'n' then
        match parseStringLoop rest with
        | .ok (acc, r) => .ok ('\n' :: acc, r)
        | .error e => .error e
      else .error (.syntaxError "Invalid escape sequence")) := by
  rw [parseStringLoop_cons]
  rw [if_neg (by decide), if_pos rfl]

theorem digitsAux_ne_nil :
    ∀ (fuel n : ℕ) (acc : List Char), acc ≠ [] ∨ fuel ≠ 0 →
      digitsAux fuel n acc ≠ [] := by
  intro fuel
  induction fuel with
  | zero =>
    intro n acc h
    rcases h with h | h
    · simpa [digitsAux] using h
    · omega
  | succ fuel ih =>
    intro n acc _
    simp only [digitsAux]
    split
    · simp
    · exact ih (n / 10) (digitChar n :: acc) (Or.inl (by simp))

theorem natDigits_ne_nil (n : ℕ) : natDigits n ≠ [] :=
  digitsAux_ne_nil (n + 1) n [] (Or.inr (by omega))

theorem renderNumber_ne_nil (x : DNum) : renderNumber x ≠ [] := by
  unfold renderNumber
  repeat' split
  all_goals simp [ite_eq_iff, List.take_eq_nil_iff, natDigits_ne_nil]

theorem printJSON_ne_nil : ∀ (v : Value) (ind : ℕ), printJSON v ind ≠ [] := by
  intro v ind
  cases v with
  | null => simp [printJSON]
  | bool b => cases b <;> simp [printJSON]
  | num x => simpa [printJSON] using renderNumber_ne_nil x
  | str s => simp [printJSON]
  | arr items => simp [printJSON]
  | obj ms => simp [printJSON]

theorem render_ne_nil (v : Value) : render v ≠ [] := by
  simpa [render] using printJSON_ne_nil v 0

/-! ### The claims -/

/-- C1 (corrected): round-tripping holds on the guarded domain: for every
`Value` tree whose strings and object keys contain no `"` or `\`, whose
numbers render exactly, and whose object key lists are duplicate-free,
`parse (render v) = .ok v` with every scalar, array slot and object entry
identical (the model keeps `unordered_map` insertion order).  The claim's
unrestricted version is false: see the counterexample. -/
theorem C1_good_round_trip {v : Value} (h : GoodTree v) : parse (render v) = .ok v :=
  parse_render h

/-- C1 counterexample: the one-character string `"` renders as three quote
characters (no re-escaping), which parses back as the empty string followed
by trailing garbage, so `parse (render v) = .ok v` fails for it. -/
theorem C1_quote_string_fails :
    parse (render (Value.str ['"'])) ≠ .ok (Value.str ['"']) := by
  have h : parse (render (Value.str ['"'])) =
      .error (.syntaxError "Unexpected trailing characters") := rfl
  rw [h]
  simp

/-- C1 witness: the round trip at the concrete good tree `"a"`. -/
theorem C1_good_round_trip_witness :
    parse (render (Value.str ['a'])) = .ok (Value.str ['a']) :=
  C1_good_round_trip (GoodTree.str ['a'] (by decide))

/-- C2 (corrected): every failure of `parse` is a `SyntaxError` carrying one
of the eight fixed catalogue messages, or one of the two `std::stod`
exceptions escaping `parseNumber` uncaught — `std::invalid_argument` on a
digitless token and `std::out_of_range` on an overflowing one — failure
shapes the catalogue does not admit, so the claim's "exactly eight fixed
messages" is false. -/
theorem C2_error_catalogue (input : List Char) (e : ParseErr)
    (h : parse input = .error e) : isRealError e = true :=
  parse_realError h

set_option maxRecDepth 100000 in
set_option exponentiation.threshold 1100 in
/-- C2 counterexample: `parse "-"` scans an empty digit sequence and
`std::stod` throws `std::invalid_argument`, and on a 309-digit literal whose
value exceeds the finite range of `double` `std::stod` throws
`std::out_of_range`; neither is one of the eight fixed syntax-error
messages. -/
theorem C2_stod_escapes :
    (parse ['-'] = .error .stodInvalidArgument ∧
      isFixedSyntaxError .stodInvalidArgument = false) ∧
      (parse (List.replicate 309 '9') = .error .stodOutOfRange ∧
        isFixedSyntaxError .stodOutOfRange = false) :=
  ⟨⟨rfl, rfl⟩, ⟨rfl, rfl⟩⟩

/-- C2 witness: the catalogue theorem at the concrete failing input `""`. -/
theorem C2_error_catalogue_witness :
    isRealError (ParseErr.syntaxError "Invalid JSON value") = true :=
  C2_error_catalogue [] (ParseErr.syntaxError "Invalid JSON value") rfl

set_option maxRecDepth 100000 in
set_option exponentiation.threshold 1100 in
/-- C3 (corrected): `parse "-12.5"` yields `Number(-12.5)` and `parse "1e5"`
fails with the trailing-characters error, as claimed; but the scanner accepts
`-?digit*(.digit*)?` — zero digits are allowed on both sides of the point —
and the number path never raises a syntax error: its only failures are the
`std::stod` exceptions, `std::invalid_argument` when no digit at all was
captured and `std::out_of_range` when the captured value overflows `double`
(e.g. a 400-digit literal).  A missing integer part is accepted silently,
refuting the claimed "exactly one or more digits" shape. -/
theorem C3_number_shape :
    (parse ("-12.5".toList) = .ok (.num ⟨-125, 1⟩) ∧ decVal ⟨-125, 1⟩ = -(25 / 2)) ∧
      parse ("1e5".toList) = .error (.syntaxError "Unexpected trailing characters") ∧
      parse (List.replicate 400 '1') = .error .stodOutOfRange ∧
      (∀ (s : List Char) (e : ParseErr),
        parseNumber s = .error e →
          e = .stodInvalidArgument ∨ e = .stodOutOfRange) := by
  refine ⟨⟨rfl, by norm_num [decVal]⟩, rfl, rfl, ?_⟩
  intro s e h
  exact parseNumber_error h

set_option maxRecDepth 100000 in
set_option exponentiation.threshold 1100 in
/-- C3 counterexample: a numeric token with no digit before the point is
parsed silently — `parse "-.5"` returns `Number(-0.5)` instead of raising a
trailing-characters or invalid-value error. -/
theorem C3_missing_digit_accepted :
    parse ("-.5".toList) = .ok (.num ⟨-5, 1⟩) ∧ decVal ⟨-5, 1⟩ = -(1 / 2) :=
  ⟨rfl, by norm_num [decVal]⟩

/-- C4 (confirmed): whenever one value is parsed and skipping whitespace does
not exhaust the input, `parse` fails with "Unexpected trailing characters";
in particular `parse "truefoo"` consumes the four-character keyword `true`
(no word-boundary check) and then fails with exactly that error. -/
theorem C4_trailing_characters :
    (∀ (input : List Char) (v : Value) (r : List Char),
        parseValueF (fuelFor input) (skipWhitespace input) = .ok (v, r) →
        skipWhitespace r ≠ [] →
        parse input = .error (.syntaxError "Unexpected trailing characters")) ∧
      parse ("truefoo".toList) = .error (.syntaxError "Unexpected trailing characters") := by
  constructor
  · intro input v r hok hr
    simp only [parse, hok]
    rw [if_neg hr]
  · rfl

/-- C5 (confirmed): after a backslash the string parser consumes exactly one
character and maps it through the four-entry escape table (`"`, `\`, `/`
map to themselves, `n` to newline); any other escape character fails with
"Invalid escape sequence", and in particular `parse "\"\\t\""` fails so. -/
theorem C5_escape_table :
    (∀ (n : Char) (rest : List Char),
        ¬(n = '"' ∨ n = '\\' ∨ n = '/') → n ≠ 'n' →
        parseStringLoop ('\\' :: n :: rest) =
          .error (.syntaxError "Invalid escape sequence")) ∧
      (∀ (n : Char) (rest acc r : List Char), (n = '"' ∨ n = '\\' ∨ n = '/') →
        parseStringLoop rest = .ok (acc, r) →
        parseStringLoop ('\\' :: n :: rest) = .ok (n :: acc, r)) ∧
      (∀ (rest acc r : List Char), parseStringLoop rest = .ok (acc, r) →
        parseStringLoop ('\\' :: 'n' :: rest) = .ok ('\n' :: acc, r)) ∧
      parse ("\"\\t\"".toList) = .error (.syntaxError "Invalid escape sequence") := by
  refine ⟨?_, ?_, ?_, rfl⟩
  · intro n rest hno hn
    rw [parseStringLoop_escape, if_neg hno, if_neg hn]
  · intro n rest acc r he hok
    rw [parseStringLoop_escape, if_pos he, hok]
  · intro rest acc r hok
    rw [parseStringLoop_escape, if_neg (by decide), if_pos rfl, hok]

set_option maxRecDepth 100000 in
set_option exponentiation.threshold 1100 in
/-- C6 (confirmed): a repeated object key keeps a single entry bound to the
later value: `operator[]` assignment replaces in place, so
`parse "{\"a\":1,\"a\":2}"` yields the object with the single key `a` mapped
to `2`; in general the insert-or-assign step leaves the looked-up key bound
to the new value and adds no duplicate key. -/
theorem C6_last_write_wins :
    parse ("\x7b\"a\":1,\"a\":2\x7d".toList) = .ok (.obj [(['a'], .num ⟨2, 0⟩)]) ∧
      (∀ (m : List (List Char × Value)) (k : List Char) (v : Value),
        objFind (objInsert m k v) k = some v) ∧
      (∀ (m : List (List Char × Value)) (k : List Char) (v : Value),
        k ∈ keysOf m → keysOf (objInsert m k v) = keysOf m) := by
  refine ⟨rfl, objFind_objInsert, ?_⟩
  intro m k v hk
  rw [keysOf_objInsert, if_pos hk]

/-- C7 (confirmed): a string whose input ends before the closing quote (with
only valid escapes on the way, as captured by `untermDecode`) raises no
error: the parser silently returns the accumulated characters, and when the
string is the whole document `parse` returns that `String` value. -/
theorem C7_unterminated_string (s acc : List Char) (h : untermDecode s = some acc) :
    parse ('"' :: s) = .ok (.str acc) := by
  have hloop := untermDecode_some s acc h
  have hskip : skipWhitespace ('"' :: s) = '"' :: s :=
    skipWhitespace_cons_nonspace s (by decide)
  obtain ⟨g, hg⟩ : ∃ g, fuelFor ('"' :: s) = g + 1 :=
    ⟨fuelFor ('"' :: s) - 1, by simp [fuelFor]⟩
  simp only [parse, hskip, hg]
  rw [parseValueF_succ g]
  simp only [hskip, peekc, List.headD_cons]
  rw [if_pos trivial]
  rw [parseString_quote, hloop]
  rfl

/-- C7 witness: the unterminated document `"ab` parses to the string `ab`. -/
theorem C7_unterminated_string_witness :
    parse ('"' :: ['a', 'b']) = .ok (.str ['a', 'b']) :=
  C7_unterminated_string ['a', 'b'] ['a', 'b'] rfl

/-- C8 (confirmed): rendering `{"x": [1, 2]}` produces exactly the six-line
text with two-space indentation per level, one element per line, no trailing
commas, aligned closing brackets and no trailing newline. -/
theorem C8_render_shape :
    render (Value.obj [(['x'], Value.arr [Value.num ⟨1, 0⟩, Value.num ⟨2, 0⟩])]) =
      ("\x7b\n  \"x\": [\n    1,\n    2\n  ]\n\x7d".toList) := by
  simp [render, printJSON, printMembers, printItems, renderNumber, spaces, natDigits,
    digitsAux, digitChar, digitLen, stripZeros, roundDiv]

/-- C9 (confirmed): the parser terminates on every input — the fuel
`3 * length + 3` supplied by `parse` is never exhausted, so the `outOfFuel`
artifact of the fuel model never escapes — and the remaining-suffix length
strictly decreases across every successfully parsed value (the cursor never
runs past the end); the serializer is total and always produces at least one
character. -/
theorem C9_termination :
    (∀ input : List Char, parse input ≠ .error .outOfFuel) ∧
      (∀ (f : ℕ) (s : List Char) (v : Value) (r : List Char),
        parseValueF f s = .ok (v, r) → r.length < s.length) ∧
      (∀ v : Value, render v ≠ []) :=
  ⟨parse_no_fuel_error, fun f s v r h => (parser_progress f).1 s v r h, render_ne_nil⟩

/-- C10 (confirmed): on the empty input, and on every input made of
whitespace only, the cursor is at end of input when `parseValue` dispatches,
no production matches, and `parse` fails with "Invalid JSON value" — it
never fabricates `Null` or any other value. -/
theorem C10_whitespace_only (input : List Char)
    (h : ∀ c ∈ input, cIsSpace c = true) :
    parse input = .error (.syntaxError "Invalid JSON value") := by
  obtain ⟨g, hg⟩ : ∃ g, fuelFor input = g + 1 :=
    ⟨fuelFor input - 1, by simp [fuelFor]⟩
  simp only [parse, skipWhitespace_eq_nil h, hg]
  rw [parseValueF_succ g]
  rfl

/-- C10 witness: the empty input fails with "Invalid JSON value". -/
theorem C10_whitespace_only_witness :
    parse [] = .error (.syntaxError "Invalid JSON value") :=
  C10_whitespace_only [] (by intro c hc; simp at hc)
